import Mathlib

set_option maxRecDepth 4000

/-!
Verification of the s3ro remote-filesystem core against its specification.

The embedding models, from the Go and C sources:
  * `pkg/remotefs/fs.go` — the path sanitizer (`FileSystem.sanitize`, built on
    Go's lexical `filepath.Clean`, which on Unix equals `path.Clean`), the
    facade operations `Stat`, `ReadDir`, and the metadata warmer
    `WarmMetadataCache` / `populateMetadata`;
  * `pkg/cache/cache.go` — the bounded on-disk LRU cache
    (`LoadOrCreate`, `ensureCapacity`, `Touch`, `Remove`);
  * `pkg/remotefs/ipc.go` — `entryFromMeta` / `defaultMode`;
  * `shim/ldpreload/remotefs_shim.c` — `allow_open_flags`,
    `remote_open_file`, `handle_open_common`.

Go strings are modelled as `String` (a packed `List Char`); all byte-level
operations of the source act segment- or character-wise on `String.data`.
-/

/-! ### Go `path.Clean` (lexical canonicalization, Unix separator)

`filepath.Clean` on Unix is `path.Clean`: split on `/`, drop empty and `.`
segments, pop a stack segment on `..` (keeping leading `..`s of a relative
path, and never ascending past the root of a rooted path). -/

/-- A path segment: a run of characters between separators. -/
abbrev Seg := List Char

/-- The `..` segment. -/
def ddSeg : Seg := ['.', '.']

/-- The `.` segment. -/
def dotSeg : Seg := ['.']

/-- Split a character list on `'/'`, keeping empty segments
(`splitSlash "a//b" = ["a", "", "b"]`); never returns `[]`. -/
def splitSlash : List Char → List Seg
  | [] => [[]]
  | c :: rest =>
    if c = '/' then [] :: splitSlash rest
    else
      match splitSlash rest with
      | s :: ss => (c :: s) :: ss
      | [] => [[c]]

/-- Join segments with `'/'`: the inverse of `splitSlash`. -/
def joinSlash : List Seg → List Char
  | [] => []
  | [s] => s
  | s :: rest => s ++ '/' :: joinSlash rest

/-- The element-processing loop of `path.Clean`: `stack` holds the output
segments in reverse. Empty and `.` segments are dropped; `..` pops the stack
when possible, is dropped at the root of a rooted path, and is kept (pushed)
for a relative path that cannot pop further. -/
def cleanLoop (rooted : Bool) (stack segs : List Seg) : List Seg :=
  match segs with
  | [] => stack.reverse
  | seg :: rest =>
    if seg = [] ∨ seg = dotSeg then cleanLoop rooted stack rest
    else if seg = ddSeg then
      match stack with
      | [] => if rooted then cleanLoop rooted [] rest else cleanLoop rooted [ddSeg] rest
      | top :: stack' =>
        if top = ddSeg then cleanLoop rooted (ddSeg :: top :: stack') rest
        else cleanLoop rooted stack' rest
    else cleanLoop rooted (seg :: stack) rest

/-- Whether a path begins with the separator. -/
def isRooted (p : List Char) : Bool :=
  match p with
  | [] => false
  | c :: _ => c = '/'

/-- Go `path.Clean` over a character list. -/
def cleanList (p : List Char) : List Char :=
  if p = [] then dotSeg
  else
    let body := joinSlash (cleanLoop (isRooted p) [] (splitSlash p))
    if isRooted p then '/' :: body
    else if body = [] then dotSeg else body

/-- Go `filepath.Clean` (equal to `path.Clean` on Unix, the platform the
source targets: `os.PathSeparator = '/'` and `ToSlash`/`FromSlash` are the
identity). -/
def goClean (s : String) : String := ⟨cleanList s.data⟩

/-! ### Go string helpers used by `sanitize` -/

/-- ASCII whitespace as trimmed by `strings.TrimSpace` (the source only ever
passes ASCII paths; the Unicode space classes add nothing here). -/
def isGoSpace (c : Char) : Bool :=
  c = ' ' || c = '\t' || c = '\n' || c = '\r' || c.toNat = 11 || c.toNat = 12

/-- `strings.TrimSpace` on the underlying characters. -/
def trimSpaceList (l : List Char) : List Char :=
  ((l.dropWhile isGoSpace).reverse.dropWhile isGoSpace).reverse

/-- Go `strings.TrimSpace`. -/
def goTrimSpace (s : String) : String := ⟨trimSpaceList s.data⟩

/-- Go `strings.HasPrefix s pre`. -/
def goHasPre (s pre : String) : Bool := pre.data.isPrefixOf s.data

/-- Go `strings.TrimPrefix s pre`: drop `pre` from the front when present. -/
def goTrimPre (s pre : String) : String :=
  if pre.data.isPrefixOf s.data then ⟨s.data.drop pre.data.length⟩ else s

/-- Go `strings.TrimLeft s "/"`. -/
def goTrimLeftSlash (s : String) : String := ⟨s.data.dropWhile (· = '/')⟩

/-! ### `FileSystem.sanitize` (fs.go lines 108–136)

`root` is the `FileSystem.localRoot` field. On Unix `os.PathSeparator` is
`'/'` and `filepath.ToSlash` is the identity. -/

/-- The sanitizer: trim, lexically clean, enforce the local-root jail, and
return the slash-separated relative key. -/
def sanitize (root localPath : String) : Except String String :=
  let lp := goTrimSpace localPath
  if lp = "" then .error "empty path"
  else
    let target := goClean lp
    let step : Except String String :=
      if root ≠ "" then
        if target ≠ root then
          if ¬ goHasPre target (root ++ "/") then
            .error "path outside of root"
          else .ok (goTrimPre target (root ++ "/"))
        else .ok ""
      else .ok (goTrimLeftSlash target)
    match step with
    | .error e => .error e
    | .ok t =>
      let rel := goTrimPre (goClean t) "/"
      .ok (if rel = "." then "" else rel)

example : goClean "" = "." := by decide
example : goClean "/" = "/" := by decide
example : goClean "/var/data/remote/../other" = "/var/data/other" := by decide
example : goClean "abc//def/.//x/.." = "abc/def" := by decide
example : goClean "../../a" = "../../a" := by decide
example : goClean "/.." = "/" := by decide
example : goClean "a/" = "a" := by decide

/-! ### Structural lemmas: `splitSlash` and `joinSlash` -/

theorem splitSlash_ne_nil : ∀ p : List Char, splitSlash p ≠ []
  | [] => by simp [splitSlash]
  | c :: rest => by
    unfold splitSlash
    split
    · simp
    · split <;> simp

theorem splitSlash_cons_slash (rest : List Char) :
    splitSlash ('/' :: rest) = [] :: splitSlash rest := by
  simp [splitSlash]

theorem splitSlash_cons_of_ne {c : Char} {rest : List Char} {s : Seg} {ss : List Seg}
    (hc : c ≠ '/') (h : splitSlash rest = s :: ss) :
    splitSlash (c :: rest) = (c :: s) :: ss := by
  unfold splitSlash
  rw [if_neg hc, h]

theorem joinSlash_splitSlash : ∀ p : List Char, joinSlash (splitSlash p) = p
  | [] => rfl
  | c :: rest => by
    have ih := joinSlash_splitSlash rest
    obtain ⟨s, ss, hss⟩ := List.exists_cons_of_ne_nil (splitSlash_ne_nil rest)
    by_cases hc : c = '/'
    · subst hc
      rw [splitSlash_cons_slash, hss]
      rw [hss] at ih
      cases ss with
      | nil => simpa [joinSlash] using ih
      | cons t ts => simpa [joinSlash] using ih
    · rw [splitSlash_cons_of_ne hc hss]
      rw [hss] at ih
      cases ss with
      | nil => simpa [joinSlash] using ih
      | cons t ts => simpa [joinSlash] using ih

theorem splitSlash_no_slash : ∀ p : List Char, ∀ s ∈ splitSlash p, '/' ∉ s
  | [] => by simp [splitSlash]
  | c :: rest => by
    have ih := splitSlash_no_slash rest
    obtain ⟨s, ss, hss⟩ := List.exists_cons_of_ne_nil (splitSlash_ne_nil rest)
    by_cases hc : c = '/'
    · subst hc
      rw [splitSlash_cons_slash]
      intro x hx
      rcases List.mem_cons.mp hx with h | h
      · subst h; simp
      · exact ih x h
    · rw [splitSlash_cons_of_ne hc hss]
      intro x hx
      rcases List.mem_cons.mp hx with h | h
      · subst h
        intro hmem
        rcases List.mem_cons.mp hmem with h | h
        · exact hc h.symm
        · exact ih s (by rw [hss]; exact List.mem_cons_self _ _) h
      · exact ih x (by rw [hss]; exact List.mem_cons_of_mem _ h)

theorem splitSlash_single : ∀ s : List Char, '/' ∉ s → splitSlash s = [s]
  | [], _ => rfl
  | c :: rest, h => by
    have hc : c ≠ '/' := fun hh => h (hh ▸ List.mem_cons_self _ _)
    have hr := splitSlash_single rest (fun hm => h (List.mem_cons_of_mem _ hm))
    exact splitSlash_cons_of_ne hc hr

theorem splitSlash_append_slash : ∀ x y : List Char,
    splitSlash (x ++ '/' :: y) = splitSlash x ++ splitSlash y
  | [], y => by simp [splitSlash_cons_slash, splitSlash]
  | c :: x', y => by
    have ih := splitSlash_append_slash x' y
    by_cases hc : c = '/'
    · subst hc
      rw [List.cons_append, splitSlash_cons_slash, splitSlash_cons_slash, ih,
        List.cons_append]
    · obtain ⟨s, ss, hss⟩ := List.exists_cons_of_ne_nil (splitSlash_ne_nil x')
      rw [hss] at ih
      rw [List.cons_append,
        splitSlash_cons_of_ne hc
          (by rw [ih, List.cons_append] : splitSlash (x' ++ '/' :: y) = s :: (ss ++ splitSlash y)),
        splitSlash_cons_of_ne hc hss, List.cons_append]

theorem splitSlash_joinSlash : ∀ l : List Seg, l ≠ [] → (∀ s ∈ l, '/' ∉ s) →
    splitSlash (joinSlash l) = l
  | [], h, _ => absurd rfl h
  | [s], _, hs => by
    simpa [joinSlash] using splitSlash_single s (hs s (List.mem_singleton.mpr rfl))
  | s :: t :: ts, _, hs => by
    have ih := splitSlash_joinSlash (t :: ts) (by simp)
      (fun x hx => hs x (List.mem_cons_of_mem _ hx))
    show splitSlash (s ++ '/' :: joinSlash (t :: ts)) = s :: t :: ts
    rw [splitSlash_append_slash, splitSlash_single s (hs s (List.mem_cons_self _ _)), ih,
      List.singleton_append]

/-! ### Structural lemmas: the `cleanLoop` element stack -/

theorem cleanLoop_nil (rooted : Bool) (stack : List Seg) :
    cleanLoop rooted stack [] = stack.reverse := rfl

theorem cleanLoop_cons (rooted : Bool) (stack : List Seg) (seg : Seg) (rest : List Seg) :
    cleanLoop rooted stack (seg :: rest)
      = if seg = [] ∨ seg = dotSeg then cleanLoop rooted stack rest
        else if seg = ddSeg then
          match stack with
          | [] => if rooted then cleanLoop rooted [] rest else cleanLoop rooted [ddSeg] rest
          | top :: stack' =>
            if top = ddSeg then cleanLoop rooted (ddSeg :: top :: stack') rest
            else cleanLoop rooted stack' rest
        else cleanLoop rooted (seg :: stack) rest := rfl

theorem cleanLoop_skip {seg : Seg} (rooted : Bool) (stack : List Seg) (rest : List Seg)
    (h : seg = [] ∨ seg = dotSeg) :
    cleanLoop rooted stack (seg :: rest) = cleanLoop rooted stack rest := by
  rw [cleanLoop_cons, if_pos h]

theorem cleanLoop_dd_root_nil (rest : List Seg) :
    cleanLoop true [] (ddSeg :: rest) = cleanLoop true [] rest := rfl

theorem cleanLoop_dd_rel_nil (rest : List Seg) :
    cleanLoop false [] (ddSeg :: rest) = cleanLoop false [ddSeg] rest := rfl

theorem cleanLoop_dd_push (rooted : Bool) {top : Seg} (stack' rest : List Seg)
    (h : top = ddSeg) :
    cleanLoop rooted (top :: stack') (ddSeg :: rest)
      = cleanLoop rooted (ddSeg :: top :: stack') rest := by
  subst h
  rfl

theorem cleanLoop_dd_pop (rooted : Bool) {top : Seg} (stack' rest : List Seg)
    (h : top ≠ ddSeg) :
    cleanLoop rooted (top :: stack') (ddSeg :: rest) = cleanLoop rooted stack' rest := by
  rw [cleanLoop_cons, if_neg (by decide : ¬(ddSeg = [] ∨ ddSeg = dotSeg)), if_pos rfl]
  simp only [if_neg h]

theorem cleanLoop_push {seg : Seg} (rooted : Bool) (stack rest : List Seg)
    (h1 : ¬(seg = [] ∨ seg = dotSeg)) (h2 : seg ≠ ddSeg) :
    cleanLoop rooted stack (seg :: rest) = cleanLoop rooted (seg :: stack) rest := by
  rw [cleanLoop_cons, if_neg h1, if_neg h2]

/-- A well-formed output segment: non-empty, not `.`, separator-free. -/
def okSeg (s : Seg) : Prop := s ≠ [] ∧ s ≠ dotSeg ∧ '/' ∉ s

theorem cleanLoop_okSeg (rooted : Bool) : ∀ segs stack : List Seg,
    (∀ s ∈ stack, okSeg s) → (∀ s ∈ segs, '/' ∉ s) →
    ∀ s ∈ cleanLoop rooted stack segs, okSeg s
  | [], stack, hstack, _ => by
    rw [cleanLoop_nil]
    intro s hs
    exact hstack s (List.mem_reverse.mp hs)
  | seg :: rest, stack, hstack, hsegs => by
    have hrest : ∀ s ∈ rest, '/' ∉ s := fun s hs => hsegs s (List.mem_cons_of_mem _ hs)
    by_cases h1 : seg = [] ∨ seg = dotSeg
    · rw [cleanLoop_skip rooted stack rest h1]
      exact cleanLoop_okSeg rooted rest stack hstack hrest
    · by_cases h2 : seg = ddSeg
      · subst h2
        match stack, hstack with
        | [], hstack =>
          cases rooted with
          | true =>
            rw [cleanLoop_dd_root_nil]
            exact cleanLoop_okSeg true rest [] hstack hrest
          | false =>
            rw [cleanLoop_dd_rel_nil]
            refine cleanLoop_okSeg false rest [ddSeg] ?_ hrest
            intro s hs
            rw [List.mem_singleton.mp hs]
            exact ⟨by decide, by decide, by decide⟩
        | top :: stack', hstack =>
          by_cases htop : top = ddSeg
          · rw [cleanLoop_dd_push rooted stack' rest htop]
            refine cleanLoop_okSeg rooted rest _ ?_ hrest
            intro s hs
            rcases List.mem_cons.mp hs with h | h
            · rw [h]; exact ⟨by decide, by decide, by decide⟩
            · exact hstack s h
          · rw [cleanLoop_dd_pop rooted stack' rest htop]
            exact cleanLoop_okSeg rooted rest stack'
              (fun s hs => hstack s (List.mem_cons_of_mem _ hs)) hrest
      · rw [cleanLoop_push rooted stack rest h1 h2]
        refine cleanLoop_okSeg rooted rest _ ?_ hrest
        intro s hs
        rcases List.mem_cons.mp hs with h | h
        · subst h
          push_neg at h1
          exact ⟨h1.1, h1.2, hsegs s (List.mem_cons_self _ _)⟩
        · exact hstack s h

theorem cleanLoop_rooted_no_dd : ∀ segs stack : List Seg, ddSeg ∉ stack →
    ddSeg ∉ cleanLoop true stack segs
  | [], stack, hstack => by
    rw [cleanLoop_nil]
    intro h
    exact hstack (List.mem_reverse.mp h)
  | seg :: rest, stack, hstack => by
    by_cases h1 : seg = [] ∨ seg = dotSeg
    · rw [cleanLoop_skip true stack rest h1]
      exact cleanLoop_rooted_no_dd rest stack hstack
    · by_cases h2 : seg = ddSeg
      · subst h2
        match stack, hstack with
        | [], hstack =>
          rw [cleanLoop_dd_root_nil]
          exact cleanLoop_rooted_no_dd rest [] hstack
        | top :: stack', hstack =>
          by_cases htop : top = ddSeg
          · exact absurd (htop ▸ List.mem_cons_self _ _) hstack
          · rw [cleanLoop_dd_pop true stack' rest htop]
            exact cleanLoop_rooted_no_dd rest stack'
              (fun h => hstack (List.mem_cons_of_mem _ h))
      · rw [cleanLoop_push true stack rest h1 h2]
        refine cleanLoop_rooted_no_dd rest _ ?_
        intro h
        rcases List.mem_cons.mp h with h | h
        · exact h2 h.symm
        · exact hstack h

/-- `..` segments occur only as a leading run. -/
def ddLead (l : List Seg) : Prop :=
  ∃ k rest, l = List.replicate k ddSeg ++ rest ∧ ddSeg ∉ rest

/-- `..` segments occur only as a trailing run (the stack is the reversed
output, so this is `ddLead` of the reverse). -/
def ddTail (l : List Seg) : Prop :=
  ∃ A k, l = A ++ List.replicate k ddSeg ∧ ddSeg ∉ A

theorem ddLead_reverse_of_ddTail {l : List Seg} (h : ddTail l) : ddLead l.reverse := by
  obtain ⟨A, k, rfl, hA⟩ := h
  refine ⟨k, A.reverse, ?_, fun hm => hA (List.mem_reverse.mp hm)⟩
  rw [List.reverse_append, List.reverse_replicate]

theorem cleanLoop_ddLead : ∀ segs stack : List Seg, ddTail stack →
    ddLead (cleanLoop false stack segs)
  | [], stack, hstack => by
    rw [cleanLoop_nil]
    exact ddLead_reverse_of_ddTail hstack
  | seg :: rest, stack, hstack => by
    by_cases h1 : seg = [] ∨ seg = dotSeg
    · rw [cleanLoop_skip false stack rest h1]
      exact cleanLoop_ddLead rest stack hstack
    · by_cases h2 : seg = ddSeg
      · subst h2
        match stack, hstack with
        | [], _ =>
          rw [cleanLoop_dd_rel_nil]
          exact cleanLoop_ddLead rest [ddSeg] ⟨[], 1, rfl, by simp⟩
        | top :: stack', hstack =>
          by_cases htop : top = ddSeg
          · rw [cleanLoop_dd_push false stack' rest htop]
            refine cleanLoop_ddLead rest _ ?_
            obtain ⟨A, k, hAk, hA⟩ := hstack
            have hAnil : A = [] := by
              cases A with
              | nil => rfl
              | cons a A' =>
                exfalso
                apply hA
                rw [List.cons_append] at hAk
                have ha : a = top := ((List.cons.inj hAk).1).symm
                rw [ha, htop]
                exact List.mem_cons_self _ _
            subst hAnil
            rw [List.nil_append] at hAk
            refine ⟨[], k + 1, ?_, by simp⟩
            rw [List.nil_append, List.replicate_succ, ← hAk]
          · rw [cleanLoop_dd_pop false stack' rest htop]
            refine cleanLoop_ddLead rest stack' ?_
            obtain ⟨A, k, hAk, hA⟩ := hstack
            cases A with
            | nil =>
              exfalso
              rw [List.nil_append] at hAk
              cases k with
              | zero => simp at hAk
              | succ k' =>
                rw [List.replicate_succ] at hAk
                exact htop (List.cons.inj hAk).1
            | cons a A' =>
              rw [List.cons_append] at hAk
              exact ⟨A', k, (List.cons.inj hAk).2,
                fun hm => hA (List.mem_cons_of_mem _ hm)⟩
      · rw [cleanLoop_push false stack rest h1 h2]
        refine cleanLoop_ddLead rest _ ?_
        obtain ⟨A, k, hAk, hA⟩ := hstack
        refine ⟨seg :: A, k, by rw [hAk, List.cons_append], ?_⟩
        intro hm
        rcases List.mem_cons.mp hm with h | h
        · exact h2 h.symm
        · exact hA h

theorem cleanLoop_plain : ∀ segs stack : List Seg, ∀ rooted : Bool,
    (∀ s ∈ segs, s ≠ [] ∧ s ≠ dotSeg ∧ s ≠ ddSeg) →
    cleanLoop rooted stack segs = stack.reverse ++ segs
  | [], stack, rooted, _ => by rw [cleanLoop_nil, List.append_nil]
  | seg :: rest, stack, rooted, h => by
    have hseg := h seg (List.mem_cons_self _ _)
    have hrest : ∀ s ∈ rest, s ≠ [] ∧ s ≠ dotSeg ∧ s ≠ ddSeg :=
      fun s hs => h s (List.mem_cons_of_mem _ hs)
    rw [cleanLoop_push rooted stack rest (by tauto) hseg.2.2,
      cleanLoop_plain rest (seg :: stack) rooted hrest]
    simp

theorem cleanLoop_dd_run : ∀ j : Nat, ∀ norms : List Seg, ∀ k : Nat,
    (∀ s ∈ norms, s ≠ [] ∧ s ≠ dotSeg ∧ s ≠ ddSeg) →
    cleanLoop false (List.replicate k ddSeg) (List.replicate j ddSeg ++ norms)
      = List.replicate (j + k) ddSeg ++ norms
  | 0, norms, k, h => by
    rw [List.replicate_zero, List.nil_append, cleanLoop_plain norms _ false h,
      List.reverse_replicate, Nat.zero_add]
  | j + 1, norms, k, h => by
    rw [List.replicate_succ, List.cons_append]
    cases k with
    | zero =>
      rw [List.replicate_zero, cleanLoop_dd_rel_nil]
      show cleanLoop false (List.replicate 1 ddSeg) (List.replicate j ddSeg ++ norms)
          = List.replicate (j + 1 + 0) ddSeg ++ norms
      rw [cleanLoop_dd_run j norms 1 h, Nat.add_zero]
    | succ k' =>
      rw [List.replicate_succ, cleanLoop_dd_push false _ _ rfl]
      show cleanLoop false (List.replicate (k' + 2) ddSeg) (List.replicate j ddSeg ++ norms)
          = List.replicate (j + 1 + (k' + 1)) ddSeg ++ norms
      rw [cleanLoop_dd_run j norms (k' + 2) h]
      have hnum : j + (k' + 2) = j + 1 + (k' + 1) := by omega
      rw [hnum]

theorem ddLead_drop {l : List Seg} (n : Nat) (h : ddLead l) : ddLead (l.drop n) := by
  obtain ⟨k, rest, rfl, hrest⟩ := h
  rw [List.drop_append_eq_append_drop]
  exact ⟨k - n, rest.drop (n - (List.replicate k ddSeg).length),
    by rw [List.drop_replicate], fun hm => hrest (List.mem_of_mem_drop hm)⟩

/-! ### The shape of `cleanList` output -/

theorem isRooted_cons (c : Char) (rest : List Char) :
    isRooted (c :: rest) = decide (c = '/') := rfl

theorem cleanList_eq_rooted {p : List Char} (hp : p ≠ []) (hr : isRooted p = true) :
    cleanList p = '/' :: joinSlash (cleanLoop true [] (splitSlash p)) := by
  simp [cleanList, hp, hr]

theorem cleanList_eq_relative {p : List Char} (hp : p ≠ []) (hr : isRooted p = false) :
    cleanList p = (if joinSlash (cleanLoop false [] (splitSlash p)) = [] then dotSeg
                   else joinSlash (cleanLoop false [] (splitSlash p))) := by
  simp [cleanList, hp, hr]

theorem cleanOut_ok (p : List Char) :
    ∀ s ∈ cleanLoop (isRooted p) [] (splitSlash p), okSeg s :=
  cleanLoop_okSeg _ _ [] (by simp) (splitSlash_no_slash p)

theorem cleanOut_no_dd (p : List Char) (hr : isRooted p = true) :
    ddSeg ∉ cleanLoop (isRooted p) [] (splitSlash p) := by
  rw [hr]
  exact cleanLoop_rooted_no_dd _ [] (by simp)

theorem cleanOut_ddLead (p : List Char) :
    ddLead (cleanLoop (isRooted p) [] (splitSlash p)) := by
  cases hr : isRooted p
  · exact cleanLoop_ddLead _ [] ⟨[], 0, by simp, by simp⟩

  · exact ⟨0, cleanLoop true [] (splitSlash p), by simp,
      cleanLoop_rooted_no_dd _ [] (by simp)⟩

/-- `path.Clean` is the identity on a relative path whose segments are
non-empty, non-`.`, and whose `..` segments form a leading run. -/
theorem cleanList_id_of_segs {r0 : List Char}
    (h1 : ∀ s ∈ splitSlash r0, s ≠ [] ∧ s ≠ dotSeg)
    (h2 : ddLead (splitSlash r0)) :
    cleanList r0 = r0 := by
  have hne : r0 ≠ [] := by
    rintro rfl
    exact (h1 [] (by simp [splitSlash])).1 rfl
  have hroot : isRooted r0 = false := by
    cases r0 with
    | nil => rfl
    | cons c rest =>
      rw [isRooted_cons, decide_eq_false_iff_not]
      intro hc
      subst hc
      exact (h1 [] (by rw [splitSlash_cons_slash]; exact List.mem_cons_self _ _)).1 rfl
  obtain ⟨k, norms, hsplit, hnorms⟩ := h2
  have hnormsOK : ∀ s ∈ norms, s ≠ [] ∧ s ≠ dotSeg ∧ s ≠ ddSeg := by
    intro s hs
    have hmem : s ∈ splitSlash r0 := by
      rw [hsplit]
      exact List.mem_append_right _ hs
    exact ⟨(h1 s hmem).1, (h1 s hmem).2, fun hdd => hnorms (hdd ▸ hs)⟩
  have hout : cleanLoop false [] (splitSlash r0) = splitSlash r0 := by
    rw [hsplit, show ([] : List Seg) = List.replicate 0 ddSeg from rfl,
      cleanLoop_dd_run k norms 0 hnormsOK, Nat.add_zero]
  rw [cleanList_eq_relative hne hroot, hout, joinSlash_splitSlash,
    if_neg hne]

/-- The final lines of `sanitize`: re-clean, strip one leading `/`, and map
`.` to the empty relative path. -/
def postProc (t : String) : String :=
  let rel := goTrimPre (goClean t) "/"
  if rel = "." then "" else rel

/-- The post-processing of `sanitize` (re-clean, strip a leading `/`, map `.`
to the empty relative path) is the identity on a well-formed remainder. -/
theorem postProc_id {r0 : List Char}
    (h1 : ∀ s ∈ splitSlash r0, s ≠ [] ∧ s ≠ dotSeg)
    (h2 : ddLead (splitSlash r0)) :
    postProc ⟨r0⟩ = ⟨r0⟩ := by
  show (if goTrimPre (goClean ⟨r0⟩) "/" = "." then "" else goTrimPre (goClean ⟨r0⟩) "/")
      = ⟨r0⟩
  have hclean : goClean ⟨r0⟩ = ⟨r0⟩ := by
    show (⟨cleanList r0⟩ : String) = ⟨r0⟩
    rw [cleanList_id_of_segs h1 h2]
  have hnoslash : ("/" : String).data.isPrefixOf r0 = false := by
    cases r0 with
    | nil => rfl
    | cons c rest =>
      have hc : c ≠ '/' := by
        intro hc
        subst hc
        exact (h1 [] (by rw [splitSlash_cons_slash]; exact List.mem_cons_self _ _)).1 rfl
      rw [Bool.eq_false_iff]
      intro htrue
      obtain ⟨t, ht⟩ := List.isPrefixOf_iff_prefix.mp htrue
      exact hc (List.cons.inj ht.symm).1
  have htrim : goTrimPre (goClean ⟨r0⟩) "/" = ⟨r0⟩ := by
    rw [hclean]
    unfold goTrimPre
    rw [if_neg (by rw [hnoslash]; exact Bool.false_ne_true)]
  rw [htrim]
  rw [if_neg ?hdot]
  case hdot =>
    intro hdot
    have hr0 : r0 = ['.'] := by
      have := congrArg String.data hdot
      simpa using this
    subst hr0
    exact (h1 dotSeg (by rw [splitSlash_single _ (by decide)]; exact List.mem_singleton.mpr rfl)).2 rfl

/-! ### Branch equations for `sanitize` -/

theorem str_ne_iff_data {s : String} : s ≠ "" ↔ s.data ≠ [] := by
  constructor
  · intro h hd
    exact h (String.ext hd)
  · intro h hs
    exact h (by rw [hs])

theorem sanitize_empty {root p : String} (h : goTrimSpace p = "") :
    sanitize root p = .error "empty path" := by
  simp [sanitize, h]

theorem sanitize_eq_root {root p : String} (hr : root ≠ "") (hne : goTrimSpace p ≠ "")
    (he : goClean (goTrimSpace p) = root) : sanitize root p = .ok "" := by
  simp only [sanitize, if_neg hne, if_pos hr, he, if_neg (not_ne_iff.mpr rfl)]
  rfl


theorem sanitize_eq_outside {root p : String} (hr : root ≠ "") (hne : goTrimSpace p ≠ "")
    (h1 : goClean (goTrimSpace p) ≠ root)
    (h2 : goHasPre (goClean (goTrimSpace p)) (root ++ "/") = false) :
    sanitize root p = .error "path outside of root" := by
  have hcond : ¬ goHasPre (goClean (goTrimSpace p)) (root ++ "/") = true := by
    simp [h2]
  simp only [sanitize, if_neg hne, if_pos hr, if_pos h1, if_pos hcond]

theorem sanitize_eq_pre {root p : String} (hr : root ≠ "") (hne : goTrimSpace p ≠ "")
    (h1 : goClean (goTrimSpace p) ≠ root)
    (h2 : goHasPre (goClean (goTrimSpace p)) (root ++ "/") = true) :
    sanitize root p
      = .ok (postProc (goTrimPre (goClean (goTrimSpace p)) (root ++ "/"))) := by
  simp only [sanitize, if_neg hne, if_pos hr, if_pos h1, if_neg (not_not_intro h2)]
  rfl

theorem sanitize_eq_noroot {p : String} (hne : goTrimSpace p ≠ "") :
    sanitize "" p = .ok (postProc (goTrimLeftSlash (goClean (goTrimSpace p)))) := by
  simp only [sanitize, if_neg hne, if_neg (not_ne_iff.mpr rfl)]
  rfl

example : sanitize "var/data/remote" "var/data/remote" = .ok "" := rfl
example : sanitize "var/data/remote" "var/data/remote/reports/today.txt" =
    .ok "reports/today.txt" := rfl
example : (sanitize "var/data/remote" "var/data/remote/../other/file").isOk = false := by
  decide
example : (sanitize "var/data/remote" "var/data/remote-mirror/file").isOk = false := by
  decide
example : sanitize "" "/alpha/beta" = .ok "alpha/beta" := rfl
example : sanitize "" "../x" = .ok "../x" := rfl

/-! ### The remainder of a cleaned path past the root is well-formed -/

theorem segs_of_clean_suffix {P r0 : List Char} {rootD : List Char}
    (hroot : rootD ≠ []) (hP : P ≠ [])
    (heq : cleanList P = rootD ++ '/' :: r0) :
    (∀ s ∈ splitSlash r0, s ≠ [] ∧ s ≠ dotSeg) ∧ ddLead (splitSlash r0) ∧
      (isRooted P = true → ddSeg ∉ splitSlash r0) := by
  have hok := cleanOut_ok P
  have hdd := cleanOut_ddLead P
  have hsplit3 : splitSlash (cleanList P) = splitSlash rootD ++ splitSlash r0 := by
    rw [heq, splitSlash_append_slash]
  have hn1 : 1 ≤ (splitSlash rootD).length :=
    List.length_pos.mpr (splitSlash_ne_nil rootD)
  have hdropEq : splitSlash r0
      = (splitSlash (cleanList P)).drop (splitSlash rootD).length := by
    rw [hsplit3, List.drop_left]
  cases hr : isRooted P with
  | true =>
    rw [hr] at hok hdd
    rcases hout : cleanLoop true [] (splitSlash P) with _ | ⟨o, os⟩
    · exfalso
      rw [cleanList_eq_rooted hP hr, hout] at heq
      have hrl : 0 < rootD.length := List.length_pos.mpr hroot
      have hlen := congrArg List.length heq
      simp only [joinSlash, List.length_cons, List.length_nil, List.length_append] at hlen
      omega
    · have houtNe : (o :: os : List Seg) ≠ [] := by simp
      have houtSlash : ∀ s ∈ (o :: os : List Seg), '/' ∉ s := by
        intro s hs
        exact (hok s (hout ▸ hs)).2.2
      have hsplitClean : splitSlash (cleanList P) = [] :: o :: os := by
        rw [cleanList_eq_rooted hP hr, hout, splitSlash_cons_slash,
          splitSlash_joinSlash _ houtNe houtSlash]
      obtain ⟨m, hm⟩ : ∃ m, (splitSlash rootD).length = m + 1 :=
        ⟨(splitSlash rootD).length - 1, by omega⟩
      have hdrop2 : splitSlash r0 = (o :: os : List Seg).drop m := by
        rw [hdropEq, hsplitClean, hm, List.drop_succ_cons]
      have hmemOut : ∀ s ∈ splitSlash r0, s ∈ (o :: os : List Seg) := by
        intro s hs
        rw [hdrop2] at hs
        exact List.mem_of_mem_drop hs
      refine ⟨fun s hs => ⟨(hok s (hout ▸ hmemOut s hs)).1, (hok s (hout ▸ hmemOut s hs)).2.1⟩,
        ?_, fun _ => ?_⟩
      · rw [hdrop2]
        exact ddLead_drop m (hout ▸ hdd)
      · intro hin
        have h1 : ddSeg ∈ cleanLoop true [] (splitSlash P) := by
          rw [hout]
          exact hmemOut ddSeg hin
        have h2 : ddSeg ∉ cleanLoop true [] (splitSlash P) := by
          have h3 := cleanOut_no_dd P hr
          rwa [hr] at h3
        exact h2 h1
  | false =>
    rw [hr] at hok hdd
    by_cases hbody : joinSlash (cleanLoop false [] (splitSlash P)) = []
    · exfalso
      rw [cleanList_eq_relative hP hr, if_pos hbody] at heq
      have hrl : 0 < rootD.length := List.length_pos.mpr hroot
      have hlen := congrArg List.length heq
      simp only [dotSeg, List.length_cons, List.length_nil, List.length_append] at hlen
      omega
    · have heq2 : cleanList P = joinSlash (cleanLoop false [] (splitSlash P)) := by
        rw [cleanList_eq_relative hP hr, if_neg hbody]
      rcases hout : cleanLoop false [] (splitSlash P) with _ | ⟨o, os⟩
      · exact absurd (by rw [hout] at hbody; exact hbody rfl) (by simp)
      · have houtNe : (o :: os : List Seg) ≠ [] := by simp
        have houtSlash : ∀ s ∈ (o :: os : List Seg), '/' ∉ s := by
          intro s hs
          exact (hok s (hout ▸ hs)).2.2
        have hsplitClean : splitSlash (cleanList P) = o :: os := by
          rw [heq2, hout, splitSlash_joinSlash _ houtNe houtSlash]
        have hdrop2 : splitSlash r0
            = (o :: os : List Seg).drop (splitSlash rootD).length := by
          rw [hdropEq, hsplitClean]
        have hmemOut : ∀ s ∈ splitSlash r0, s ∈ (o :: os : List Seg) := by
          intro s hs
          rw [hdrop2] at hs
          exact List.mem_of_mem_drop hs
        refine ⟨fun s hs => ⟨(hok s (hout ▸ hmemOut s hs)).1, (hok s (hout ▸ hmemOut s hs)).2.1⟩,
          ?_, fun hcontra => absurd hcontra (by simp [hr])⟩
        rw [hdrop2]
        exact ddLead_drop _ (hout ▸ hdd)

/-! ### String-level prefix facts -/

theorem strAppend_data (s t : String) : (s ++ t).data = s.data ++ t.data := rfl

theorem goHasPre_data {s pre : String} (h : goHasPre s pre = true) :
    ∃ t : List Char, s.data = pre.data ++ t := by
  obtain ⟨t, ht⟩ := List.isPrefixOf_iff_prefix.mp h
  exact ⟨t, ht.symm⟩

theorem goTrimPre_of_has {s pre : String} {t : List Char} (h : goHasPre s pre = true)
    (ht : s.data = pre.data ++ t) : goTrimPre s pre = ⟨t⟩ := by
  unfold goTrimPre
  rw [if_pos (show pre.data.isPrefixOf s.data = true from h), ht, List.drop_left]

theorem ne_of_goHasPre {target root : String} (h : goHasPre target (root ++ "/") = true) :
    target ≠ root := by
  intro he
  subst he
  obtain ⟨t, ht⟩ := goHasPre_data h
  have hlen := congrArg List.length ht
  rw [strAppend_data, List.length_append, List.length_append] at hlen
  simp at hlen
  omega

theorem head_ne_slash_of_segs {l : List Char} (h1 : ∀ s ∈ splitSlash l, s ≠ []) :
    l.head? ≠ some '/' := by
  cases l with
  | nil => simp
  | cons c t =>
    intro hc
    simp only [List.head?_cons, Option.some.injEq] at hc
    subst hc
    exact h1 [] (by rw [splitSlash_cons_slash]; exact List.mem_cons_self _ _) rfl

/-- In the prefix branch, `sanitize` returns exactly the remainder past
`root ++ "/"`, and that remainder reconstructs the cleaned input. -/
theorem sanitize_pre_remainder {root p : String} (hroot : root ≠ "")
    (hne : goTrimSpace p ≠ "")
    (hpre : goHasPre (goClean (goTrimSpace p)) (root ++ "/") = true) :
    ∃ rel, sanitize root p = .ok rel ∧ root ++ "/" ++ rel = goClean (goTrimSpace p) ∧
      (∀ s ∈ splitSlash rel.data, s ≠ [] ∧ s ≠ dotSeg) ∧
      (isRooted (goTrimSpace p).data = true → ddSeg ∉ splitSlash rel.data) := by
  have hneq : goClean (goTrimSpace p) ≠ root := ne_of_goHasPre hpre
  obtain ⟨r0, hr0⟩ := goHasPre_data hpre
  have hr0' : (goClean (goTrimSpace p)).data = root.data ++ '/' :: r0 := by
    rw [hr0, strAppend_data, List.append_assoc]
    rfl
  have htrim : goTrimPre (goClean (goTrimSpace p)) (root ++ "/") = ⟨r0⟩ :=
    goTrimPre_of_has hpre (by rw [hr0])
  have hprops := segs_of_clean_suffix
    (str_ne_iff_data.mp hroot) (str_ne_iff_data.mp hne) hr0'
  refine ⟨⟨r0⟩, ?_, ?_, by simpa using hprops.1, by simpa using hprops.2.2⟩
  · rw [sanitize_eq_pre hroot hne hneq hpre, htrim,
      postProc_id hprops.1 hprops.2.1]
  · apply String.ext
    rw [strAppend_data, strAppend_data, hr0', List.append_assoc]
    rfl

/-- C1: when `local_root` is configured and non-empty, `sanitize` accepts an
input path exactly when its lexical canonicalization (`filepath.Clean` of the
trimmed input) equals the root — yielding the empty relative path — or begins
with the root followed by the path separator — yielding the remainder past
`root ++ "/"` (so prefix-lookalikes such as `<root>-mirror/x` and escaping
paths such as `<root>/../other` are rejected with an error). -/
theorem sanitize_root_jail (root p : String) (hroot : root ≠ "") :
    ((sanitize root p).isOk = true ↔
      (goTrimSpace p ≠ "" ∧
        (goClean (goTrimSpace p) = root ∨
          goHasPre (goClean (goTrimSpace p)) (root ++ "/") = true)))
    ∧ (goTrimSpace p ≠ "" → goClean (goTrimSpace p) = root → sanitize root p = .ok "")
    ∧ (goTrimSpace p ≠ "" → goHasPre (goClean (goTrimSpace p)) (root ++ "/") = true →
        ∃ rel, sanitize root p = .ok rel ∧ root ++ "/" ++ rel = goClean (goTrimSpace p)) := by
  refine ⟨?_, fun hne he => sanitize_eq_root hroot hne he, fun hne hpre => ?_⟩
  · constructor
    · intro hok
      by_cases hne : goTrimSpace p = ""
      · rw [sanitize_empty hne] at hok
        simp [Except.isOk, Except.toBool] at hok
      · refine ⟨hne, ?_⟩
        by_cases he : goClean (goTrimSpace p) = root
        · exact Or.inl he
        · by_cases hpre : goHasPre (goClean (goTrimSpace p)) (root ++ "/") = true
          · exact Or.inr hpre
          · rw [sanitize_eq_outside hroot hne he (Bool.eq_false_iff.mpr hpre)] at hok
            simp [Except.isOk, Except.toBool] at hok
    · rintro ⟨hne, he | hpre⟩
      · rw [sanitize_eq_root hroot hne he]
        rfl
      · obtain ⟨rel, hrel, -⟩ := sanitize_pre_remainder hroot hne hpre
        rw [hrel]
        rfl
  · obtain ⟨rel, hrel, hcat, -⟩ := sanitize_pre_remainder hroot hne hpre
    exact ⟨rel, hrel, hcat⟩

/-- Witness for C1 at concrete inputs: with root `/data`, the prefix-lookalike
`/data-mirror/x` and the escaping path `/data/../other` are rejected, while a
genuine child is accepted with the remainder as relative path. -/
theorem sanitize_root_jail_witness :
    (sanitize "/data" "/data-mirror/x").isOk = false ∧
    (sanitize "/data" "/data/../other").isOk = false ∧
    sanitize "/data" "/data/docs/x.txt" = .ok "docs/x.txt" := by
  refine ⟨?_, ?_, rfl⟩
  · have h := (sanitize_root_jail "/data" "/data-mirror/x" (by decide)).1
    rw [Bool.eq_false_iff]
    intro hok
    have h2 := h.mp hok
    revert h2
    decide
  · have h := (sanitize_root_jail "/data" "/data/../other" (by decide)).1
    rw [Bool.eq_false_iff]
    intro hok
    have h2 := h.mp hok
    revert h2
    decide

/-! ### Output shape of `sanitize` (claim C2) -/

theorem joinSlash_cons_head (c : Char) (o' : List Char) (os : List Seg) :
    ∃ tl, joinSlash ((c :: o') :: os) = c :: tl := by
  cases os with
  | nil => exact ⟨o', rfl⟩
  | cons t ts => exact ⟨o' ++ '/' :: joinSlash (t :: ts), rfl⟩

/-- With no configured root, the slash-stripped cleaned input is either
trivial or a well-formed relative path. -/
theorem noroot_target_props {lp : String} (hlp : lp.data ≠ []) :
    goTrimLeftSlash (goClean lp) = "" ∨ goTrimLeftSlash (goClean lp) = "." ∨
      (∃ t0 : List Char, goTrimLeftSlash (goClean lp) = ⟨t0⟩ ∧
        (∀ s ∈ splitSlash t0, s ≠ [] ∧ s ≠ dotSeg) ∧ ddLead (splitSlash t0) ∧
        (isRooted lp.data = true → ddSeg ∉ splitSlash t0)) := by
  have hok := cleanOut_ok lp.data
  have hdd := cleanOut_ddLead lp.data
  cases hr : isRooted lp.data with
  | true =>
    rw [hr] at hok hdd
    rcases hout : cleanLoop true [] (splitSlash lp.data) with _ | ⟨o, os⟩
    · left
      apply String.ext
      show ((goClean lp).data).dropWhile (· = '/') = []
      show (cleanList lp.data).dropWhile (· = '/') = []
      rw [cleanList_eq_rooted hlp hr, hout]
      rfl
    · right; right
      have hoNe : o ≠ [] := (hok o (by rw [hout]; exact List.mem_cons_self _ _)).1
      obtain ⟨c, o', rfl⟩ := List.exists_cons_of_ne_nil hoNe
      obtain ⟨tl, htl⟩ := joinSlash_cons_head c o' os
      have hcne : c ≠ '/' := by
        intro hc
        exact (hok (c :: o') (by rw [hout]; exact List.mem_cons_self _ _)).2.2
          (hc ▸ List.mem_cons_self _ _)
      refine ⟨joinSlash ((c :: o') :: os), ?_, ?_, ?_, fun _ => ?_⟩
      · apply String.ext
        show ((goClean lp).data).dropWhile (· = '/') = _
        show (cleanList lp.data).dropWhile (· = '/') = _
        rw [cleanList_eq_rooted hlp hr, hout, List.dropWhile_cons_of_pos (by simp), htl,
          List.dropWhile_cons_of_neg (by simpa using hcne), ← htl]
      all_goals rw [splitSlash_joinSlash _ (by simp)
          (fun s hs => (hok s (by rw [hout]; exact hs)).2.2)]
      · exact fun s hs => ⟨(hok s (by rw [hout]; exact hs)).1,
          (hok s (by rw [hout]; exact hs)).2.1⟩
      · rw [← hout]
        exact hdd
      · intro hin
        have h3 := cleanOut_no_dd lp.data hr
        rw [hr, hout] at h3
        exact h3 hin
  | false =>
    rw [hr] at hok hdd
    by_cases hbody : joinSlash (cleanLoop false [] (splitSlash lp.data)) = []
    · right; left
      apply String.ext
      show ((goClean lp).data).dropWhile (· = '/') = ['.']
      show (cleanList lp.data).dropWhile (· = '/') = ['.']
      rw [cleanList_eq_relative hlp hr, if_pos hbody]
      rfl
    · right; right
      rcases hout : cleanLoop false [] (splitSlash lp.data) with _ | ⟨o, os⟩
      · exact absurd (by rw [hout] at hbody; exact hbody rfl) (by simp)
      · have hoNe : o ≠ [] := (hok o (by rw [hout]; exact List.mem_cons_self _ _)).1
        obtain ⟨c, o', rfl⟩ := List.exists_cons_of_ne_nil hoNe
        obtain ⟨tl, htl⟩ := joinSlash_cons_head c o' os
        have hcne : c ≠ '/' := by
          intro hc
          exact (hok (c :: o') (by rw [hout]; exact List.mem_cons_self _ _)).2.2
            (hc ▸ List.mem_cons_self _ _)
        refine ⟨joinSlash ((c :: o') :: os), ?_, ?_, ?_, fun hcontra => by simp [hr] at hcontra⟩
        · apply String.ext
          show ((goClean lp).data).dropWhile (· = '/') = _
          show (cleanList lp.data).dropWhile (· = '/') = _
          rw [cleanList_eq_relative hlp hr, if_neg hbody, hout, htl,
            List.dropWhile_cons_of_neg (by simpa using hcne), ← htl]
        all_goals rw [splitSlash_joinSlash _ (by simp)
            (fun s hs => (hok s (by rw [hout]; exact hs)).2.2)]
        · exact fun s hs => ⟨(hok s (by rw [hout]; exact hs)).1,
            (hok s (by rw [hout]; exact hs)).2.1⟩
        · rw [← hout]
          exact hdd

/-- C2 (amended): every successful `sanitize` result is either the empty
relative path or a slash-separated relative path with no empty segment, no
`.` segment and no leading separator; when the trimmed input is an absolute
path the result also has no `..` segment. (For relative inputs with empty
`local_root`, leading `..` segments survive — see the counterexample.) -/
theorem sanitize_output_wellformed (root p rel : String)
    (h : sanitize root p = .ok rel) :
    rel = "" ∨
      ((∀ s ∈ splitSlash rel.data, s ≠ [] ∧ s ≠ dotSeg) ∧
        rel.data.head? ≠ some '/' ∧
        (isRooted (goTrimSpace p).data = true → ddSeg ∉ splitSlash rel.data)) := by
  by_cases htrim : goTrimSpace p = ""
  · rw [sanitize_empty htrim] at h
    exact absurd h (by simp)
  by_cases hroot : root = ""
  · subst hroot
    rw [sanitize_eq_noroot htrim] at h
    have hin := Except.ok.inj h
    rcases noroot_target_props (str_ne_iff_data.mp htrim) with hz | hdot | ⟨t0, ht0, h1, h2, h3⟩
    · left
      rw [← hin, hz]
      rfl
    · left
      rw [← hin, hdot]
      rfl
    · right
      have hid : postProc ⟨t0⟩ = ⟨t0⟩ := postProc_id h1 h2
      rw [← hin, ht0, hid]
      exact ⟨h1, head_ne_slash_of_segs (fun s hs => (h1 s hs).1), h3⟩
  · by_cases he : goClean (goTrimSpace p) = root
    · left
      rw [sanitize_eq_root hroot htrim he] at h
      exact (Except.ok.inj h).symm
    · by_cases hpre : goHasPre (goClean (goTrimSpace p)) (root ++ "/") = true
      · obtain ⟨rel', hrel', -, h1, h3⟩ := sanitize_pre_remainder hroot htrim hpre
        have hr : rel = rel' := by
          rw [hrel'] at h
          exact (Except.ok.inj h).symm
        subst hr
        right
        exact ⟨h1, head_ne_slash_of_segs (fun s hs => (h1 s hs).1), h3⟩
      · rw [sanitize_eq_outside hroot htrim he (Bool.eq_false_iff.mpr hpre)] at h
        exact absurd h (by simp)

/-- Witness for C2 (amended) at a concrete input: `sanitize` with root
`/data` maps `/data/docs//x.txt` to `docs/x.txt`, which is well-formed. -/
theorem sanitize_output_wellformed_witness :
    ("docs/x.txt" : String) = "" ∨
      ((∀ s ∈ splitSlash ("docs/x.txt" : String).data, s ≠ [] ∧ s ≠ dotSeg) ∧
        ("docs/x.txt" : String).data.head? ≠ some '/' ∧
        (isRooted (goTrimSpace "/data/docs//x.txt").data = true →
          ddSeg ∉ splitSlash ("docs/x.txt" : String).data)) :=
  sanitize_output_wellformed "/data" "/data/docs//x.txt" "docs/x.txt" rfl

/-- Counterexample to C2 as stated: with empty `local_root`, the relative
input `../x` is accepted unchanged, and the result contains a `..` segment. -/
theorem sanitize_output_dotdot_counterexample :
    sanitize "" "../x" = .ok "../x" ∧ ddSeg ∈ splitSlash ("../x" : String).data :=
  ⟨rfl, by decide⟩

/-! ### `pkg/cache/cache.go`: the bounded on-disk LRU cache

The Go cache keeps a `map[string]*cacheEntry`, a `container/list` LRU order
and a `used` counter, maintained in lock step under one mutex; a single
association list (front = most recently used) models the map and the list
together. `disk` models the set of files present in the cache directory. -/

/-- `cacheEntry` (cache.go 24–28): the on-disk path and the accounted size;
the `list.Element` back-pointer is the entry's position in the order list. -/
structure CacheEntry where
  path : String
  size : Int
deriving DecidableEq

/-- The cache state guarded by `Cache.mu`, plus the cache-directory contents. -/
structure CacheState where
  maxBytes : Int
  entries : List (String × CacheEntry)
  used : Int
  disk : List String
deriving DecidableEq

/-- `Cache.keyPath`: the content-addressed destination file for a key. The
SHA-256 hex digest is modelled by the key itself — a deterministic injective
naming, which is the only property the source relies on. -/
def keyPath (key : String) : String := key

/-- Map lookup `c.entries[key]`. -/
def findEntry (key : String) : List (String × CacheEntry) → Option CacheEntry
  | [] => none
  | (k, e) :: rest => if k = key then some e else findEntry key rest

/-- Drop the entry stored under `key` (first occurrence). -/
def eraseEntry (key : String) : List (String × CacheEntry) → List (String × CacheEntry)
  | [] => []
  | (k, e) :: rest => if k = key then rest else (k, e) :: eraseEntry key rest

/-- `c.order.MoveToFront(entry.elem)`. -/
def moveToFront (key : String) (l : List (String × CacheEntry)) :
    List (String × CacheEntry) :=
  match findEntry key l with
  | none => l
  | some e => (key, e) :: eraseEntry key l

/-- `os.OpenFile(path, O_CREATE|O_RDWR|O_TRUNC, …)`: the file now exists. -/
def insertPath (path : String) (disk : List String) : List String :=
  if path ∈ disk then disk else path :: disk

/-- `os.Remove(path)`. -/
def removePath (path : String) (disk : List String) : List String :=
  disk.filter (fun q => q ≠ path)

/-- The eviction loop of `ensureCapacity` (cache.go 102–110): while the
budget would be exceeded and entries remain, evict the LRU tail entry,
removing its file and subtracting its size. `fuel` bounds the iteration;
`entries.length` steps always suffice. -/
def evictLoop : Nat → Int → CacheState → CacheState
  | 0, _, c => c
  | fuel + 1, need, c =>
    if c.used + need > c.maxBytes ∧ c.entries ≠ [] then
      match c.entries.getLast? with
      | none => c
      | some (_, e) =>
        evictLoop fuel need
          { c with entries := c.entries.dropLast,
                   used := c.used - e.size,
                   disk := removePath e.path c.disk }
    else c

/-- `Cache.ensureCapacity` (cache.go 98–115): `true` is the nil error,
`false` the capacity-exceeded error; the state carries the evictions that
happened before the check. -/
def ensureCapacity (need : Int) (c : CacheState) : Bool × CacheState :=
  if c.maxBytes ≤ 0 then (true, c)
  else
    let c' := evictLoop c.entries.length need c
    if c'.used + need > c'.maxBytes then (false, c')
    else (true, c')

/-- `Cache.LoadOrCreate` (cache.go 52–96). The fetch callback is modelled by
its outcome: an error, or success together with the fetched file's stat size
(the source overwrites the callback's return value with `info.Size()`). -/
def loadOrCreate (c : CacheState) (key : String) (fetch : Except Unit Int) :
    Except Unit String × CacheState :=
  match findEntry key c.entries with
  | some e => (.ok e.path, { c with entries := moveToFront key c.entries })
  | none =>
    let path := keyPath key
    let c1 := { c with disk := insertPath path c.disk }
    match fetch with
    | .error _ => (.error (), { c1 with disk := removePath path c1.disk })
    | .ok size =>
      match ensureCapacity size c1 with
      | (false, c2) => (.error (), { c2 with disk := removePath path c2.disk })
      | (true, c2) =>
        (.ok path,
          { c2 with entries := (key, ⟨path, size⟩) :: c2.entries,
                    used := c2.used + size })

/-- `Cache.Touch` (cache.go 118–124). -/
def touch (c : CacheState) (key : String) : CacheState :=
  match findEntry key c.entries with
  | some _ => { c with entries := moveToFront key c.entries }
  | none => c

/-- `Cache.Remove` (cache.go 127–138). -/
def removeKey (c : CacheState) (key : String) : CacheState :=
  match findEntry key c.entries with
  | none => c
  | some e =>
    { c with disk := removePath e.path c.disk,
             entries := eraseEntry key c.entries,
             used := c.used - e.size }

/-- A public cache operation with its fetch oracle. -/
inductive CacheOp where
  | load (key : String) (fetch : Except Unit Int)
  | touch (key : String)
  | remove (key : String)

/-- Apply one public operation. -/
def applyOp (c : CacheState) : CacheOp → CacheState
  | .load key fetch => (loadOrCreate c key fetch).2
  | .touch key => touch c key
  | .remove key => removeKey c key

/-- Run a sequential trace of public operations. -/
def runOps (c : CacheState) : List CacheOp → CacheState
  | [] => c
  | op :: ops => runOps (applyOp c op) ops

/-- `cache.New` (cache.go 31–41): fresh state, empty directory. -/
def initCache (maxBytes : Int) : CacheState := ⟨maxBytes, [], 0, []⟩

/-- Total accounted size of the resident entries. -/
def sumSizes (l : List (String × CacheEntry)) : Int :=
  (l.map (fun kv => kv.2.size)).sum

/-- Real file sizes are non-negative (`info.Size()`). -/
abbrev sizesNonneg (l : List (String × CacheEntry)) : Prop :=
  ∀ kv ∈ l, 0 ≤ kv.2.size

/-- A fetch oracle reports a non-negative stat size. -/
def opOK : CacheOp → Bool
  | .load _ (.ok size) => 0 ≤ size
  | _ => true

/-- The cache invariant of the spec: the counter matches the entries, and the
quota holds whenever one is configured. -/
def cacheInv (c : CacheState) : Prop :=
  c.used = sumSizes c.entries ∧ sizesNonneg c.entries ∧
    (0 < c.maxBytes → c.used ≤ c.maxBytes)

example : (loadOrCreate (initCache 100) "a" (.ok 60)).2.used = 60 := by decide
example : (loadOrCreate ((loadOrCreate (initCache 100) "a" (.ok 60)).2) "b" (.ok 60)).2.used
    = 60 := by decide
example : (loadOrCreate ((loadOrCreate (initCache 100) "a" (.ok 60)).2) "b" (.ok 60)).2.entries.map
    (fun kv => kv.1) = ["b"] := by decide

/-! ### Cache accounting lemmas -/

theorem sumSizes_nil : sumSizes [] = 0 := rfl

theorem sumSizes_cons (k : String) (e : CacheEntry) (l : List (String × CacheEntry)) :
    sumSizes ((k, e) :: l) = e.size + sumSizes l := by
  simp [sumSizes]

theorem findEntry_mem {key : String} : ∀ {l : List (String × CacheEntry)} {e : CacheEntry},
    findEntry key l = some e → (key, e) ∈ l
  | [], e, h => by simp [findEntry] at h
  | (k, e') :: rest, e, h => by
    by_cases hk : k = key
    · subst hk
      rw [findEntry, if_pos rfl] at h
      rw [Option.some.inj h]
      exact List.mem_cons_self _ _
    · rw [findEntry, if_neg hk] at h
      exact List.mem_cons_of_mem _ (findEntry_mem h)

theorem eraseEntry_subset {key : String} : ∀ l : List (String × CacheEntry),
    ∀ kv ∈ eraseEntry key l, kv ∈ l
  | [], kv, h => by simp [eraseEntry] at h
  | (k, e') :: rest, kv, h => by
    by_cases hk : k = key
    · rw [eraseEntry, if_pos hk] at h
      exact List.mem_cons_of_mem _ h
    · rw [eraseEntry, if_neg hk] at h
      rcases List.mem_cons.mp h with h | h
      · exact h ▸ List.mem_cons_self _ _
      · exact List.mem_cons_of_mem _ (eraseEntry_subset rest kv h)

theorem sumSizes_erase {key : String} : ∀ {l : List (String × CacheEntry)} {e : CacheEntry},
    findEntry key l = some e → sumSizes l = e.size + sumSizes (eraseEntry key l)
  | [], e, h => by simp [findEntry] at h
  | (k, e') :: rest, e, h => by
    by_cases hk : k = key
    · subst hk
      rw [findEntry, if_pos rfl] at h
      rw [eraseEntry, if_pos rfl, sumSizes_cons, Option.some.inj h]
    · rw [findEntry, if_neg hk] at h
      rw [eraseEntry, if_neg hk, sumSizes_cons, sumSizes_cons, sumSizes_erase h]
      ring

theorem moveToFront_sum (key : String) (l : List (String × CacheEntry)) :
    sumSizes (moveToFront key l) = sumSizes l := by
  unfold moveToFront
  cases h : findEntry key l with
  | none => rfl
  | some e => rw [sumSizes_cons, ← sumSizes_erase h]

theorem moveToFront_subset (key : String) (l : List (String × CacheEntry)) :
    ∀ kv ∈ moveToFront key l, kv ∈ l := by
  unfold moveToFront
  cases h : findEntry key l with
  | none => exact fun kv hkv => hkv
  | some e =>
    intro kv hkv
    rcases List.mem_cons.mp hkv with h2 | h2
    · exact h2 ▸ findEntry_mem h
    · exact eraseEntry_subset l kv h2

theorem sumSizes_nonneg : ∀ {l : List (String × CacheEntry)}, sizesNonneg l → 0 ≤ sumSizes l
  | [], _ => le_refl 0
  | (k, e) :: rest, h => by
    rw [sumSizes_cons]
    have h1 : 0 ≤ e.size := h (k, e) (List.mem_cons_self _ _)
    have h2 := sumSizes_nonneg (fun kv hkv => h kv (List.mem_cons_of_mem _ hkv))
    omega

theorem sumSizes_dropLast : ∀ {l : List (String × CacheEntry)} {kv : String × CacheEntry},
    l.getLast? = some kv → sumSizes l = sumSizes l.dropLast + kv.2.size
  | [], kv, h => by simp at h
  | [x], kv, h => by
    simp only [List.getLast?_singleton, Option.some.injEq] at h
    subst h
    simp [sumSizes]
  | x :: y :: t, kv, h => by
    rw [List.getLast?_cons_cons] at h
    have ih : sumSizes (y :: t) = sumSizes (y :: t).dropLast + kv.2.size :=
      sumSizes_dropLast h
    show sumSizes (x :: y :: t) = sumSizes ((x :: y :: t).dropLast) + kv.2.size
    rw [List.dropLast_cons₂]
    cases x with
    | mk k e =>
      rw [sumSizes_cons, ih, sumSizes_cons]
      omega

/-! ### Eviction-loop invariants -/

theorem dropLast_subset' : ∀ (l : List (String × CacheEntry)), ∀ x ∈ l.dropLast, x ∈ l
  | [], x, h => by simp at h
  | [a], x, h => by simp at h
  | a :: b :: t, x, h => by
    rw [List.dropLast_cons₂] at h
    rcases List.mem_cons.mp h with h | h
    · exact h ▸ List.mem_cons_self _ _
    · exact List.mem_cons_of_mem _ (dropLast_subset' (b :: t) x h)

theorem evictLoop_facts : ∀ (fuel : Nat) (need : Int) (c : CacheState),
    c.used = sumSizes c.entries → sizesNonneg c.entries →
    ((evictLoop fuel need c).used = sumSizes (evictLoop fuel need c).entries
      ∧ sizesNonneg (evictLoop fuel need c).entries
      ∧ (evictLoop fuel need c).used ≤ c.used
      ∧ (evictLoop fuel need c).maxBytes = c.maxBytes)
  | 0, need, c, hsum, hnn => ⟨hsum, hnn, le_refl _, rfl⟩
  | fuel + 1, need, c, hsum, hnn => by
    rw [evictLoop]
    by_cases hcond : c.used + need > c.maxBytes ∧ c.entries ≠ []
    · rw [if_pos hcond]
      cases hlast : c.entries.getLast? with
      | none => exact ⟨hsum, hnn, le_refl _, rfl⟩
      | some kv =>
        cases kv with
        | mk k e =>
          have hsum' : sumSizes c.entries = sumSizes c.entries.dropLast + e.size :=
            sumSizes_dropLast hlast
          have hnn' : sizesNonneg c.entries.dropLast :=
            fun x hx => hnn x (dropLast_subset' _ x hx)
          have hmem : (k, e) ∈ c.entries := by
            obtain ⟨hne2, hx⟩ :=
              List.mem_getLast?_eq_getLast (Option.mem_def.mpr hlast)
            rw [hx]
            exact List.getLast_mem hne2
          have he : 0 ≤ e.size := hnn (k, e) hmem
          have ih := evictLoop_facts fuel need
            { c with entries := c.entries.dropLast,
                     used := c.used - e.size,
                     disk := removePath e.path c.disk }
            (show c.used - e.size = sumSizes c.entries.dropLast by omega) hnn'
          exact ⟨ih.1, ih.2.1,
            le_trans ih.2.2.1 (show c.used - e.size ≤ c.used by omega), ih.2.2.2⟩
    · rw [if_neg hcond]
      exact ⟨hsum, hnn, le_refl _, rfl⟩

theorem evictLoop_empties : ∀ (fuel : Nat) (need : Int) (c : CacheState),
    c.entries.length ≤ fuel → c.used = sumSizes c.entries → sizesNonneg c.entries →
    c.maxBytes < need →
    ((evictLoop fuel need c).entries = [] ∧ (evictLoop fuel need c).used = 0
      ∧ (evictLoop fuel need c).maxBytes = c.maxBytes)
  | 0, need, c, hlen, hsum, hnn, hneed => by
    have hent : c.entries = [] := List.length_eq_zero.mp (Nat.le_zero.mp hlen)
    rw [evictLoop]
    exact ⟨hent, by rw [hsum, hent, sumSizes_nil], rfl⟩
  | fuel + 1, need, c, hlen, hsum, hnn, hneed => by
    rw [evictLoop]
    by_cases hent : c.entries = []
    · rw [if_neg (by simp [hent])]
      exact ⟨hent, by rw [hsum, hent, sumSizes_nil], rfl⟩
    · have hpos : 0 ≤ c.used := hsum ▸ sumSizes_nonneg hnn
      rw [if_pos ⟨by omega, hent⟩]
      cases hlast : c.entries.getLast? with
      | none =>
        exfalso
        exact hent (List.getLast?_eq_none_iff.mp hlast)
      | some kv =>
        cases kv with
        | mk k e =>
          have hsum' : sumSizes c.entries = sumSizes c.entries.dropLast + e.size :=
            sumSizes_dropLast hlast
          have hnn' : sizesNonneg c.entries.dropLast :=
            fun x hx => hnn x (dropLast_subset' _ x hx)
          have hlen' : c.entries.dropLast.length ≤ fuel := by
            rw [List.length_dropLast]
            have := List.length_pos.mpr hent
            omega
          exact evictLoop_empties fuel need
            { c with entries := c.entries.dropLast,
                     used := c.used - e.size,
                     disk := removePath e.path c.disk }
            hlen' (show c.used - e.size = sumSizes c.entries.dropLast by omega) hnn' hneed

theorem ensureCapacity_facts (need : Int) (c : CacheState)
    (hsum : c.used = sumSizes c.entries) (hnn : sizesNonneg c.entries)
    (hquota : 0 < c.maxBytes → c.used ≤ c.maxBytes) :
    ((ensureCapacity need c).2.used = sumSizes (ensureCapacity need c).2.entries
      ∧ sizesNonneg (ensureCapacity need c).2.entries
      ∧ (ensureCapacity need c).2.maxBytes = c.maxBytes
      ∧ (0 < c.maxBytes → (ensureCapacity need c).2.used ≤ c.maxBytes)
      ∧ ((ensureCapacity need c).1 = true → 0 < c.maxBytes →
          (ensureCapacity need c).2.used + need ≤ c.maxBytes)) := by
  unfold ensureCapacity
  by_cases hneg : c.maxBytes ≤ 0
  · rw [if_pos hneg]
    exact ⟨hsum, hnn, rfl, hquota, fun _ hpos => absurd hpos (by omega)⟩
  · rw [if_neg hneg]
    have hfacts := evictLoop_facts c.entries.length need c hsum hnn
    by_cases hover :
        (evictLoop c.entries.length need c).used + need
          > (evictLoop c.entries.length need c).maxBytes
    · rw [if_pos hover]
      exact ⟨hfacts.1, hfacts.2.1, hfacts.2.2.2,
        fun hpos => le_trans hfacts.2.2.1 (hquota hpos),
        fun hfalse => absurd hfalse (by simp)⟩
    · rw [if_neg hover]
      refine ⟨hfacts.1, hfacts.2.1, hfacts.2.2.2,
        fun hpos => le_trans hfacts.2.2.1 (hquota hpos), fun _ _ => ?_⟩
      have hover' : (evictLoop c.entries.length need c).used + need
          ≤ (evictLoop c.entries.length need c).maxBytes := by omega
      show (evictLoop c.entries.length need c).used + need ≤ c.maxBytes
      rw [← hfacts.2.2.2]
      exact hover'

theorem loadOrCreate_inv (c : CacheState) (key : String) (fetch : Except Unit Int)
    (hinv : cacheInv c) (hok : opOK (.load key fetch) = true) :
    cacheInv (loadOrCreate c key fetch).2 := by
  obtain ⟨hsum, hnn, hquota⟩ := hinv
  unfold loadOrCreate
  cases hfind : findEntry key c.entries with
  | some e =>
    simp only []
    exact ⟨by rw [hsum]; exact (moveToFront_sum key c.entries).symm,
      fun kv hkv => hnn kv (moveToFront_subset key c.entries kv hkv), hquota⟩
  | none =>
    cases fetch with
    | error u => exact ⟨hsum, hnn, hquota⟩
    | ok size =>
      have hsize : 0 ≤ size := by
        simpa [opOK] using hok
      have hfacts := ensureCapacity_facts size
        { c with disk := insertPath (keyPath key) c.disk } hsum hnn hquota
      rcases hcap : ensureCapacity size { c with disk := insertPath (keyPath key) c.disk }
        with ⟨b, c2⟩
      rw [hcap] at hfacts
      have hf1 : c2.used = sumSizes c2.entries := hfacts.1
      have hf2 : sizesNonneg c2.entries := hfacts.2.1
      have hf3 : c2.maxBytes = c.maxBytes := hfacts.2.2.1
      have hf4 : 0 < c.maxBytes → c2.used ≤ c.maxBytes := hfacts.2.2.2.1
      have hf5 : b = true → 0 < c.maxBytes → c2.used + size ≤ c.maxBytes := hfacts.2.2.2.2
      simp only [hcap]
      cases b with
      | false =>
        refine ⟨hf1, hf2, fun hpos => ?_⟩
        have hpos' : 0 < c.maxBytes := by rw [← hf3]; exact hpos
        show c2.used ≤ c2.maxBytes
        rw [hf3]
        exact hf4 hpos'
      | true =>
        refine ⟨?_, ?_, fun hpos => ?_⟩
        · show c2.used + size = sumSizes ((key, ⟨keyPath key, size⟩) :: c2.entries)
          rw [sumSizes_cons, hf1]
          ring
        · intro kv hkv
          rcases List.mem_cons.mp hkv with h | h
          · rw [h]
            exact hsize
          · exact hf2 kv h
        · have hpos' : 0 < c.maxBytes := by rw [← hf3]; exact hpos
          show c2.used + size ≤ c2.maxBytes
          rw [hf3]
          exact hf5 rfl hpos'

theorem touch_inv (c : CacheState) (key : String) (hinv : cacheInv c) :
    cacheInv (touch c key) := by
  obtain ⟨hsum, hnn, hquota⟩ := hinv
  unfold touch
  cases hfind : findEntry key c.entries with
  | none => exact ⟨hsum, hnn, hquota⟩
  | some e =>
    exact ⟨by rw [hsum]; exact (moveToFront_sum key c.entries).symm,
      fun kv hkv => hnn kv (moveToFront_subset key c.entries kv hkv), hquota⟩

theorem removeKey_inv (c : CacheState) (key : String) (hinv : cacheInv c) :
    cacheInv (removeKey c key) := by
  obtain ⟨hsum, hnn, hquota⟩ := hinv
  unfold removeKey
  cases hfind : findEntry key c.entries with
  | none => exact ⟨hsum, hnn, hquota⟩
  | some e =>
    have hesize : 0 ≤ e.size := hnn (key, e) (findEntry_mem hfind)
    have herase := sumSizes_erase hfind
    refine ⟨?_, fun kv hkv => hnn kv (eraseEntry_subset _ kv hkv), fun hpos => ?_⟩
    · show c.used - e.size = sumSizes (eraseEntry key c.entries)
      omega
    · show c.used - e.size ≤ c.maxBytes
      have := hquota hpos
      omega

theorem applyOp_inv (c : CacheState) (op : CacheOp) (hinv : cacheInv c)
    (hop : opOK op = true) : cacheInv (applyOp c op) := by
  cases op with
  | load key fetch => exact loadOrCreate_inv c key fetch hinv hop
  | touch key => exact touch_inv c key hinv
  | remove key => exact removeKey_inv c key hinv

theorem runOps_inv : ∀ (ops : List CacheOp) (c : CacheState), cacheInv c →
    (∀ op ∈ ops, opOK op = true) → cacheInv (runOps c ops)
  | [], c, hinv, _ => hinv
  | op :: ops, c, hinv, hops => by
    rw [runOps]
    exact runOps_inv ops (applyOp c op)
      (applyOp_inv c op hinv (hops op (List.mem_cons_self _ _)))
      (fun o ho => hops o (List.mem_cons_of_mem _ ho))

/-- C7: for every sequential trace of public cache operations from a fresh
cache (with fetched sizes non-negative, as real file sizes are), at every
operation boundary the `used` counter equals the sum of the resident entry
sizes, and whenever `max_bytes > 0` the counter does not exceed it. -/
theorem cache_used_invariant (maxBytes : Int) (ops : List CacheOp) (n : Nat)
    (hops : ∀ op ∈ ops, opOK op = true) :
    cacheInv (runOps (initCache maxBytes) (ops.take n)) := by
  refine runOps_inv (ops.take n) (initCache maxBytes) ?_ ?_
  · exact ⟨rfl, by intro kv hkv; simp [initCache] at hkv, fun hpos => le_of_lt hpos⟩
  · exact fun op hop => hops op (List.mem_of_mem_take hop)

/-- Witness for C7: a concrete trace — fill, evict, promote, remove — keeps
the invariant at the final boundary. -/
theorem cache_used_invariant_witness :
    cacheInv (runOps (initCache 100)
      ([.load "a" (.ok 60), .load "b" (.ok 60), .touch "b", .remove "b"].take 4)) :=
  cache_used_invariant 100 [.load "a" (.ok 60), .load "b" (.ok 60), .touch "b", .remove "b"]
    4 (by decide)

/-! ### Oversized objects (claim C3) and the disabled quota (claim C10) -/

theorem not_mem_removePath (path : String) (disk : List String) :
    path ∉ removePath path disk := by
  intro h
  have := List.of_mem_filter h
  simp at this

/-- C3 (amended): fetching an object larger than a positive quota for a
non-resident key fails with the capacity error, leaves no file at
`keyPath key`, and inserts no entry — but before failing the loop evicts
every resident entry, so the map is emptied and `used` drops to `0` (the
original claim's "map and used counter unchanged" fails; see the
counterexample). -/
theorem loadOrCreate_oversize (c : CacheState) (key : String) (size : Int)
    (hsum : c.used = sumSizes c.entries) (hnn : sizesNonneg c.entries)
    (hmax : 0 < c.maxBytes) (hsize : c.maxBytes < size)
    (hmiss : findEntry key c.entries = none) :
    (loadOrCreate c key (.ok size)).1 = .error ()
      ∧ keyPath key ∉ (loadOrCreate c key (.ok size)).2.disk
      ∧ (loadOrCreate c key (.ok size)).2.entries = []
      ∧ (loadOrCreate c key (.ok size)).2.used = 0 := by
  have hempty := evictLoop_empties c.entries.length size
    { c with disk := insertPath (keyPath key) c.disk }
    (le_refl _) hsum hnn hsize
  have hcap : ensureCapacity size { c with disk := insertPath (keyPath key) c.disk }
      = (false, evictLoop c.entries.length size
          { c with disk := insertPath (keyPath key) c.disk }) := by
    unfold ensureCapacity
    rw [if_neg (show ¬ c.maxBytes ≤ 0 by omega)]
    rw [if_pos ?hcond]
    case hcond =>
      rw [hempty.2.1, hempty.2.2]
      show (0 : Int) + size > c.maxBytes
      omega
  unfold loadOrCreate
  rw [hmiss]
  simp only [hcap]
  exact ⟨by simp, not_mem_removePath _ _, hempty.1, hempty.2.1⟩

/-- Counterexample to C3 as stated: quota 100, resident entry `a` of size 60;
inserting `b` of size 150 returns the capacity error but also evicts `a`,
leaving the map empty and `used = 0 ≠ 60`. -/
theorem loadOrCreate_oversize_counterexample :
    ((loadOrCreate ((loadOrCreate (initCache 100) "a" (.ok 60)).2) "b" (.ok 150)).1.isOk
        = false
      ∧ ((loadOrCreate (initCache 100) "a" (.ok 60)).2).used = 60
      ∧ ((loadOrCreate (initCache 100) "a" (.ok 60)).2).entries ≠ []
      ∧ (loadOrCreate ((loadOrCreate (initCache 100) "a" (.ok 60)).2) "b" (.ok 150)).2.used
          = 0
      ∧ (loadOrCreate ((loadOrCreate (initCache 100) "a" (.ok 60)).2) "b"
          (.ok 150)).2.entries = []) := by
  decide

/-- Witness for C3 (amended) at the same concrete input. -/
theorem loadOrCreate_oversize_witness :
    (loadOrCreate ((loadOrCreate (initCache 100) "a" (.ok 60)).2) "b" (.ok 150)).1
        = .error ()
      ∧ keyPath "b" ∉
          (loadOrCreate ((loadOrCreate (initCache 100) "a" (.ok 60)).2) "b"
            (.ok 150)).2.disk
      ∧ (loadOrCreate ((loadOrCreate (initCache 100) "a" (.ok 60)).2) "b"
          (.ok 150)).2.entries = []
      ∧ (loadOrCreate ((loadOrCreate (initCache 100) "a" (.ok 60)).2) "b"
          (.ok 150)).2.used = 0 :=
  loadOrCreate_oversize ((loadOrCreate (initCache 100) "a" (.ok 60)).2) "b" 150
    (by decide) (by decide) (by decide) (by decide) (by decide)

/-- C10: with `max_bytes ≤ 0` the quota is disabled — `ensureCapacity`
returns immediately, so every successful fetch for a non-resident key is
inserted at the front, no resident entry is evicted, no capacity error is
possible, and `used` grows by the fetched size without bound. -/
theorem loadOrCreate_unbounded (c : CacheState) (key : String) (size : Int)
    (hmax : c.maxBytes ≤ 0) (hmiss : findEntry key c.entries = none) :
    (loadOrCreate c key (.ok size)).1 = .ok (keyPath key)
      ∧ (loadOrCreate c key (.ok size)).2.entries
          = (key, ⟨keyPath key, size⟩) :: c.entries
      ∧ (loadOrCreate c key (.ok size)).2.used = c.used + size := by
  have hcap : ensureCapacity size { c with disk := insertPath (keyPath key) c.disk }
      = (true, { c with disk := insertPath (keyPath key) c.disk }) := by
    unfold ensureCapacity
    rw [if_pos (show c.maxBytes ≤ 0 from hmax)]
  unfold loadOrCreate
  rw [hmiss]
  simp only [hcap]
  exact ⟨by simp, by simp, by simp⟩

/-- Witness for C10: quota 0, inserting a huge object succeeds and grows
`used` past any configured bound. -/
theorem loadOrCreate_unbounded_witness :
    (loadOrCreate ((loadOrCreate (initCache 0) "a" (.ok 1000)).2) "b" (.ok 123456789)).1
        = .ok (keyPath "b")
      ∧ (loadOrCreate ((loadOrCreate (initCache 0) "a" (.ok 1000)).2) "b"
          (.ok 123456789)).2.entries
          = ("b", ⟨keyPath "b", 123456789⟩)
            :: ((loadOrCreate (initCache 0) "a" (.ok 1000)).2).entries
      ∧ (loadOrCreate ((loadOrCreate (initCache 0) "a" (.ok 1000)).2) "b"
          (.ok 123456789)).2.used
          = ((loadOrCreate (initCache 0) "a" (.ok 1000)).2).used + 123456789 :=
  loadOrCreate_unbounded ((loadOrCreate (initCache 0) "a" (.ok 1000)).2) "b" 123456789
    (by decide) (by decide)

/-! ### `pkg/objectstore` data model and the Facade (`pkg/remotefs/fs.go`)

The store is abstracted by its two metadata operations `head` and `list`,
passed as function parameters (an arbitrary `objectstore.ObjectStore`).
`LastModified` is modelled as nanoseconds since the epoch, `0` being Go's
zero `time.Time`. -/

/-- `objectstore.FileMeta`. -/
structure FileMeta where
  Path : String
  Size : Int
  ETag : String
  LastModified : Int
  IsDir : Bool
deriving DecidableEq

/-- A store error: `NotFoundError` (unwrapping to `ErrNotFound`) or an
opaque backend failure. -/
inductive StoreErr where
  | notFound
  | backend (msg : String)
deriving DecidableEq

/-- `objectstore.IsNotFound`. -/
def StoreErr.isNotFound : StoreErr → Bool
  | .notFound => true
  | .backend _ => false

/-- The error's rendered message. -/
def StoreErr.msg : StoreErr → String
  | .notFound => "object not found"
  | .backend m => m

/-- A facade error: a sanitizer rejection, `remotefs.NotFoundError` carrying
the rendered local path, or an opaque error surfaced unchanged. -/
inductive FsError where
  | invalidPath (msg : String)
  | notFound (path : String)
  | backend (msg : String)
deriving DecidableEq

/-- `filepath.Join` of two non-empty components (Unix): clean of the
`"/"`-joined parts. -/
def goJoin (a b : String) : String := goClean (a ++ "/" ++ b)

/-- `FileSystem.joinLocal` (fs.go 94–105). -/
def joinLocal (root rel : String) : String :=
  if root = "" then
    if rel = "" then "/" else goJoin "/" rel
  else
    if rel = "" then root else goJoin root rel

/-- Go map lookup in the warmed metadata map. -/
def lookupMeta (rel : String) : List (String × FileMeta) → Option FileMeta
  | [] => none
  | (k, m) :: rest => if k = rel then some m else lookupMeta rel rest

/-- `FileSystem.cachedMeta` (fs.go 247–255): `none` models the nil map of the
cold state. -/
def cachedMeta (meta : Option (List (String × FileMeta))) (rel : String) :
    Option FileMeta :=
  match meta with
  | none => none
  | some m => lookupMeta rel m

/-- `FileSystem.Stat` (fs.go 139–169). -/
def statFS (root : String) (meta : Option (List (String × FileMeta)))
    (head : String → Except StoreErr FileMeta)
    (list : String → Except StoreErr (List FileMeta))
    (localPath : String) : Except FsError FileMeta :=
  match sanitize root localPath with
  | .error e => .error (.invalidPath e)
  | .ok rel =>
    if rel = "" then .ok ⟨"", 0, "", 0, true⟩
    else
      let absPath := joinLocal root rel
      match cachedMeta meta rel with
      | some m => .ok m
      | none =>
        match head rel with
        | .ok m => .ok m
        | .error he =>
          if ¬ he.isNotFound then .error (.backend he.msg)
          else
            match list rel with
            | .ok entries =>
              if entries.length > 0 then .ok ⟨rel, 0, "", 0, true⟩
              else .error (.notFound absPath)
            | .error listErr =>
              if ¬ listErr.isNotFound then .error (.backend listErr.msg)
              else .error (.notFound absPath)

/-- `FileSystem.ReadDir` (fs.go 172–188). -/
def readDirFS (root : String)
    (list : String → Except StoreErr (List FileMeta))
    (localPath : String) : Except FsError (List FileMeta) :=
  match sanitize root localPath with
  | .error e => .error (.invalidPath e)
  | .ok rel =>
    match list rel with
    | .error listErr =>
      if listErr.isNotFound || rel ≠ "" then .error (.notFound (joinLocal root rel))
      else .error (.backend listErr.msg)
    | .ok items =>
      if rel ≠ "" ∧ items.length = 0 then .error (.notFound (joinLocal root rel))
      else .ok items

example :
    statFS "" none (fun _ => .error .notFound)
      (fun rel => if rel = "docs" then .ok [⟨"docs/report.txt", 0, "", 0, false⟩]
                  else .ok [])
      "/docs" = .ok ⟨"docs", 0, "", 0, true⟩ := rfl

example :
    readDirFS "" (fun _ => .ok []) "/" = .ok [] := rfl

/-! ### Claims C4 (ReadDir) and C5 (Stat) -/

/-- C4 (amended): with the sanitized path non-empty, ReadDir raises NotFound
when the listing is empty, not-found, or any other error; the root path
returns its children even when the list is empty, raises NotFound on a
not-found listing error, and surfaces a non-not-found backend error opaquely
only there. -/
theorem readDir_notfound_policy (root localPath rel : String)
    (list : String → Except StoreErr (List FileMeta))
    (hs : sanitize root localPath = .ok rel) :
    (∀ items, rel ≠ "" → list rel = .ok items → items = [] →
        readDirFS root list localPath = .error (.notFound (joinLocal root rel)))
    ∧ (∀ e, rel ≠ "" → list rel = .error e →
        readDirFS root list localPath = .error (.notFound (joinLocal root rel)))
    ∧ (∀ items, list rel = .ok items → items ≠ [] →
        readDirFS root list localPath = .ok items)
    ∧ (∀ items, rel = "" → list rel = .ok items →
        readDirFS root list localPath = .ok items)
    ∧ (rel = "" → list rel = .error .notFound →
        readDirFS root list localPath = .error (.notFound (joinLocal root rel)))
    ∧ (∀ m, rel = "" → list rel = .error (.backend m) →
        readDirFS root list localPath = .error (.backend m)) := by
  refine ⟨?_, ?_, ?_, ?_, ?_, ?_⟩
  · intro items hrel hlist hempty
    unfold readDirFS
    rw [hs]
    simp only [hlist, hempty]
    rw [if_pos ⟨hrel, rfl⟩]
  · intro e hrel hlist
    unfold readDirFS
    rw [hs]
    simp only [hlist]
    rw [if_pos (by simp [hrel])]
  · intro items hlist hne
    unfold readDirFS
    rw [hs]
    simp only [hlist]
    rw [if_neg (by rintro ⟨-, hlen⟩; exact hne (List.length_eq_zero.mp hlen))]
  · intro items hrel hlist
    unfold readDirFS
    rw [hs]
    simp only [hlist]
    rw [if_neg (by rintro ⟨hcontra, -⟩; exact hcontra hrel)]
  · intro hrel hlist
    unfold readDirFS
    rw [hs]
    simp only [hlist]
    rw [if_pos (by simp [StoreErr.isNotFound])]
  · intro m hrel hlist
    unfold readDirFS
    rw [hs]
    simp only [hlist]
    rw [if_neg (by simp [StoreErr.isNotFound, hrel])]
    rfl

/-- Witness for C4 (amended): at the root an empty listing is returned as an
empty directory, and a backend error is surfaced opaquely. -/
theorem readDir_notfound_policy_witness :
    readDirFS "" (fun _ => .ok []) "/" = .ok []
      ∧ readDirFS "" (fun _ => .error (.backend "boom")) "/"
          = .error (.backend "boom") := by
  constructor
  · exact (readDir_notfound_policy "" "/" "" (fun _ => .ok []) rfl).2.2.2.1 [] rfl rfl
  · exact (readDir_notfound_policy "" "/" "" (fun _ => .error (.backend "boom"))
      rfl).2.2.2.2.2 "boom" rfl rfl

/-- Counterexample to C4 as stated: for the non-root path `/docs`, a
non-not-found backend error from the listing is converted into NotFound
instead of being surfaced opaquely. -/
theorem readDir_backend_to_notfound_counterexample :
    readDirFS "" (fun _ => .error (.backend "boom")) "/docs"
      = .error (.notFound "/docs") := rfl

/-- C5: on a non-empty sanitized path with no warm-cache entry, Stat returns
head's metadata on success; on head not-found it falls back to the listing —
a non-empty listing synthesizes a directory `FileMeta` with `Path = rel`,
`IsDir = true`, `Size = 0`; an empty or not-found listing raises NotFound
carrying the rendered absolute local path. -/
theorem stat_head_list_fallback (root localPath rel : String)
    (meta : Option (List (String × FileMeta)))
    (head : String → Except StoreErr FileMeta)
    (list : String → Except StoreErr (List FileMeta))
    (hs : sanitize root localPath = .ok rel) (hrel : rel ≠ "")
    (hcold : cachedMeta meta rel = none) :
    (∀ m, head rel = .ok m → statFS root meta head list localPath = .ok m)
    ∧ (∀ items, head rel = .error .notFound → list rel = .ok items → items ≠ [] →
        statFS root meta head list localPath = .ok ⟨rel, 0, "", 0, true⟩)
    ∧ (head rel = .error .notFound → list rel = .ok [] →
        statFS root meta head list localPath = .error (.notFound (joinLocal root rel)))
    ∧ (head rel = .error .notFound → list rel = .error .notFound →
        statFS root meta head list localPath
          = .error (.notFound (joinLocal root rel))) := by
  refine ⟨?_, ?_, ?_, ?_⟩
  · intro m hhead
    unfold statFS
    rw [hs]
    simp only [if_neg hrel, hcold, hhead]
  · intro items hhead hlist hne
    unfold statFS
    rw [hs]
    simp only [if_neg hrel, hcold, hhead, hlist]
    rw [if_neg (by simp [StoreErr.isNotFound]),
      if_pos (by simpa using List.length_pos.mpr hne)]
  · intro hhead hlist
    unfold statFS
    rw [hs]
    simp only [if_neg hrel, hcold, hhead, hlist]
    rw [if_neg (by simp [StoreErr.isNotFound]), if_neg (by simp)]
  · intro hhead hlist
    unfold statFS
    rw [hs]
    simp only [if_neg hrel, hcold, hhead, hlist]
    rw [if_neg (by simp [StoreErr.isNotFound]),
      if_neg (by simp [StoreErr.isNotFound])]

/-- Witness for C5: the flat-key directory scenario — the store holds only
`docs/report.txt`, yet `Stat("/docs")` synthesizes the directory `docs`. -/
theorem stat_head_list_fallback_witness :
    statFS "" none (fun _ => .error .notFound)
      (fun rel => if rel = "docs" then .ok [⟨"docs/report.txt", 11, "", 0, false⟩]
                  else .ok [])
      "/docs" = .ok ⟨"docs", 0, "", 0, true⟩ :=
  (stat_head_list_fallback "" "/docs" "docs" none (fun _ => .error .notFound)
      (fun rel => if rel = "docs" then .ok [⟨"docs/report.txt", 11, "", 0, false⟩]
                  else .ok [])
      rfl (by decide) rfl).2.1
    [⟨"docs/report.txt", 11, "", 0, false⟩] rfl rfl (by simp)

/-! ### `WarmMetadataCache` / `populateMetadata` (fs.go 233–281, claim C6)

The recursive walk is modelled with explicit fuel (`none` = fuel exhausted:
the Go code simply recurses as deep as the store's tree); `done rel` models
`ctx.Done()` being observed at the cancellation check when visiting `rel`. -/

/-- Go map assignment `dst[item.Path] = item`. -/
def insertMeta (k : String) (m : FileMeta) (dst : List (String × FileMeta)) :
    List (String × FileMeta) := (k, m) :: dst

/-- The `for _, item := range items` body of `populateMetadata`, parametrized
by the recursive call for sub-directories. -/
def populateItemsAux
    (pm : String → List (String × FileMeta) →
      Option (Except StoreErr (List (String × FileMeta)))) :
    List FileMeta → List (String × FileMeta) →
    Option (Except StoreErr (List (String × FileMeta)))
  | [], dst => some (.ok dst)
  | item :: rest, dst =>
    let dst1 := insertMeta item.Path item dst
    if item.IsDir then
      match pm item.Path dst1 with
      | none => none
      | some (.error e) => some (.error e)
      | some (.ok dst2) => populateItemsAux pm rest dst2
    else
      populateItemsAux pm rest dst1

/-- `FileSystem.populateMetadata` (fs.go 259–281). -/
def populateMetadata (list : String → Except StoreErr (List FileMeta))
    (done : String → Bool) : Nat → String → List (String × FileMeta) →
    Option (Except StoreErr (List (String × FileMeta)))
  | 0, _, _ => none
  | fuel + 1, rel, dst =>
    if done rel then some (.error (.backend "context cancelled"))
    else
      match list rel with
      | .error e => if e.isNotFound then some (.ok dst) else some (.error e)
      | .ok items => populateItemsAux (populateMetadata list done fuel) items dst

/-- The Facade's metadata state (`FileSystem.meta` under `metaMu`). -/
structure FSMeta where
  meta : Option (List (String × FileMeta))
deriving DecidableEq

/-- The synthetic root entry stored under `""`. -/
def rootMeta : FileMeta := ⟨"", 0, "", 0, true⟩

/-- `FileSystem.WarmMetadataCache` (fs.go 233–243): build the snapshot, and
install it in a single write only on success. -/
def warmMetadataCache (list : String → Except StoreErr (List FileMeta))
    (done : String → Bool) (fuel : Nat) (fs : FSMeta) :
    Option (Except StoreErr Unit × FSMeta) :=
  let entries := insertMeta "" rootMeta []
  match populateMetadata list done fuel "" entries with
  | none => none
  | some (.error e) => some (.error e, fs)
  | some (.ok m) => some (.ok (), { meta := some m })

/-- Items encountered while processing one directory's listing, parametrized
by the recursive walk. -/
def encItemsAux (ew : String → List FileMeta) : List FileMeta → List FileMeta
  | [] => []
  | item :: rest =>
    item :: ((if item.IsDir then ew item.Path else []) ++ encItemsAux ew rest)

/-- The multiset of `FileMeta` values encountered by the successful walk:
every item of every listed directory, recursively. -/
def encWalk (list : String → Except StoreErr (List FileMeta))
    (done : String → Bool) : Nat → String → List FileMeta
  | 0, _ => []
  | fuel + 1, rel =>
    if done rel then []
    else
      match list rel with
      | .error _ => []
      | .ok items => encItemsAux (encWalk list done fuel) items

/-- Domain monotonicity between metadata maps. -/
def monoDom (dst m' : List (String × FileMeta)) : Prop :=
  ∀ k, lookupMeta k dst ≠ none → lookupMeta k m' ≠ none

theorem lookupMeta_insert (k : String) (m : FileMeta)
    (dst : List (String × FileMeta)) (q : String)
    (h : lookupMeta q dst ≠ none) : lookupMeta q (insertMeta k m dst) ≠ none := by
  show lookupMeta q ((k, m) :: dst) ≠ none
  unfold lookupMeta
  by_cases hk : k = q
  · simp [hk]
  · simpa [hk] using h

theorem lookupMeta_insert_self (k : String) (m : FileMeta)
    (dst : List (String × FileMeta)) : lookupMeta k (insertMeta k m dst) ≠ none := by
  show lookupMeta k ((k, m) :: dst) ≠ none
  unfold lookupMeta
  simp

theorem populateItemsAux_success
    (pm : String → List (String × FileMeta) →
      Option (Except StoreErr (List (String × FileMeta))))
    (ew : String → List FileMeta)
    (hA : ∀ rel dst m', pm rel dst = some (.ok m') →
      monoDom dst m' ∧ ∀ fm ∈ ew rel, lookupMeta fm.Path m' ≠ none) :
    ∀ (items : List FileMeta) (dst m' : List (String × FileMeta)),
      populateItemsAux pm items dst = some (.ok m') →
      monoDom dst m' ∧ ∀ fm ∈ encItemsAux ew items, lookupMeta fm.Path m' ≠ none
  | [], dst, m', h => by
    simp only [populateItemsAux] at h
    have hdm : dst = m' := by simpa using h
    subst hdm
    exact ⟨fun k hk => hk, by simp [encItemsAux]⟩
  | item :: rest, dst, m', h => by
    simp only [populateItemsAux] at h
    by_cases hdir : item.IsDir
    · rw [if_pos hdir] at h
      cases hpm : pm item.Path (insertMeta item.Path item dst) with
      | none =>
        rw [hpm] at h
        exact absurd h (by simp)
      | some res =>
        cases res with
        | error e =>
          rw [hpm] at h
          exact absurd h (by simp)
        | ok dst2 =>
          rw [hpm] at h
          have hsub := populateItemsAux_success pm ew hA rest dst2 m' h
          have hthis := hA item.Path (insertMeta item.Path item dst) dst2 hpm
          refine ⟨fun k hk => hsub.1 k (hthis.1 k (lookupMeta_insert _ _ _ _ hk)), ?_⟩
          intro fm hfm
          simp only [encItemsAux, if_pos hdir] at hfm
          rcases List.mem_cons.mp hfm with hfm | hfm
          · subst hfm
            exact hsub.1 _ (hthis.1 _ (lookupMeta_insert_self _ _ _))
          · rcases List.mem_append.mp hfm with hfm | hfm
            · exact hsub.1 _ (hthis.2 fm hfm)
            · exact hsub.2 fm hfm
    · rw [if_neg hdir] at h
      have hsub := populateItemsAux_success pm ew hA rest
        (insertMeta item.Path item dst) m' h
      refine ⟨fun k hk => hsub.1 k (lookupMeta_insert _ _ _ _ hk), ?_⟩
      intro fm hfm
      simp only [encItemsAux, if_neg hdir, List.nil_append] at hfm
      rcases List.mem_cons.mp hfm with hfm | hfm
      · subst hfm
        exact hsub.1 _ (lookupMeta_insert_self _ _ _)
      · exact hsub.2 fm hfm

theorem populateMetadata_success (list : String → Except StoreErr (List FileMeta))
    (done : String → Bool) : ∀ (fuel : Nat) (rel : String)
    (dst m' : List (String × FileMeta)),
    populateMetadata list done fuel rel dst = some (.ok m') →
    monoDom dst m' ∧ ∀ fm ∈ encWalk list done fuel rel, lookupMeta fm.Path m' ≠ none
  | 0, rel, dst, m', h => by
    simp [populateMetadata] at h
  | fuel + 1, rel, dst, m', h => by
    simp only [populateMetadata] at h
    by_cases hdone : done rel = true
    · rw [if_pos hdone] at h
      exact absurd h (by simp)
    · rw [if_neg hdone] at h
      cases hlist : list rel with
      | error e =>
        simp only [hlist] at h
        by_cases hnf : e.isNotFound = true
        · rw [if_pos hnf] at h
          have hdm : dst = m' := by simpa using h
          subst hdm
          refine ⟨fun k hk => hk, ?_⟩
          simp only [encWalk, if_neg hdone, hlist]
          simp
        · rw [if_neg hnf] at h
          exact absurd h (by simp)
      | ok items =>
        simp only [hlist] at h
        have hmain := populateItemsAux_success (populateMetadata list done fuel)
          (encWalk list done fuel) (populateMetadata_success list done fuel) items dst m' h
        refine ⟨hmain.1, ?_⟩
        simp only [encWalk, if_neg hdone, hlist]
        exact hmain.2

/-- C6: the warm snapshot is installed atomically: if the walk returns an
error (a backend failure or the modelled context cancellation), the Facade's
metadata state is unchanged; on success the installed map contains the root
entry `""` and an entry for every `FileMeta` encountered in the walk. -/
theorem warmMetadataCache_atomic
    (list : String → Except StoreErr (List FileMeta)) (done : String → Bool)
    (fuel : Nat) (fs : FSMeta) (r : Except StoreErr Unit) (fs' : FSMeta)
    (h : warmMetadataCache list done fuel fs = some (r, fs')) :
    (∀ e, r = .error e → fs' = fs) ∧
    (r = .ok () → ∃ m, fs'.meta = some m ∧ lookupMeta "" m ≠ none ∧
      ∀ fm ∈ encWalk list done fuel "", lookupMeta fm.Path m ≠ none) := by
  simp only [warmMetadataCache] at h
  cases hpm : populateMetadata list done fuel "" (insertMeta "" rootMeta []) with
  | none =>
    rw [hpm] at h
    exact absurd h (by simp)
  | some res =>
    rw [hpm] at h
    cases res with
    | error e =>
      have h1 : (Except.error e, fs) = (r, fs') := by simpa using h
      refine ⟨fun e' _ => ?_, fun hok => ?_⟩
      · rw [← (Prod.mk.injEq _ _ _ _).mp h1 |>.2]
      · rw [← (Prod.mk.injEq _ _ _ _).mp h1 |>.1] at hok
        exact absurd hok (by simp)
    | ok m =>
      have h1 : (Except.ok (), ({ meta := some m } : FSMeta)) = (r, fs') := by simpa using h
      have hfs : fs' = { meta := some m } := ((Prod.mk.injEq _ _ _ _).mp h1).2.symm
      have hsucc := populateMetadata_success list done fuel "" _ m hpm
      refine ⟨fun e he => ?_, fun _ => ?_⟩
      · rw [← ((Prod.mk.injEq _ _ _ _).mp h1).1] at he
        exact absurd he (by simp)
      · exact ⟨m, by rw [hfs],
          hsucc.1 "" (lookupMeta_insert_self _ _ _), hsucc.2⟩

/-- Witness for C6: a two-level store (root containing the directory `docs`)
warms successfully; the snapshot carries `""` and every encountered entry. -/
theorem warmMetadataCache_atomic_witness :
    (∀ e, (Except.ok () : Except StoreErr Unit) = .error e →
      (⟨some [("docs", ⟨"docs", 0, "", 0, true⟩), ("", rootMeta)]⟩ : FSMeta) = ⟨none⟩) ∧
    ((Except.ok () : Except StoreErr Unit) = .ok () →
      ∃ m, (⟨some [("docs", ⟨"docs", 0, "", 0, true⟩), ("", rootMeta)]⟩ : FSMeta).meta
            = some m
        ∧ lookupMeta "" m ≠ none
        ∧ ∀ fm ∈ encWalk
            (fun rel => if rel = "" then .ok [⟨"docs", 0, "", 0, true⟩] else .ok [])
            (fun _ => false) 3 "",
            lookupMeta fm.Path m ≠ none) :=
  warmMetadataCache_atomic
    (fun rel => if rel = "" then .ok [⟨"docs", 0, "", 0, true⟩] else .ok [])
    (fun _ => false) 3 ⟨none⟩ (.ok ())
    ⟨some [("docs", ⟨"docs", 0, "", 0, true⟩), ("", rootMeta)]⟩ rfl

/-! ### `pkg/remotefs/ipc.go`: POSIX attribute synthesis (claim C9) -/

/-- Mode constants (ipc.go 19–24). -/
def modeDirBits : Nat := 0o040000

def modeRegBits : Nat := 0o100000

def dirPerms : Nat := 0o550

def filePerms : Nat := 0o440

/-- The wire projection `remotefs.POSIXEntry` (ipc.go 27–38). -/
structure POSIXEntry where
  Path : String
  Size : Int
  ETag : String
  LastModified : Int
  IsDir : Bool
  Mode : Nat
  UID : Int
  GID : Int
  User : String
  Group : String
deriving DecidableEq

/-- `remotefs.IPCServer`: identity fields captured once at construction. -/
structure IPCServer where
  uid : Int
  gid : Int
  user : String
  group : String
deriving DecidableEq

/-- `NewIPCServer` (ipc.go 50–66): captures `os.Geteuid()` / `os.Getegid()`
and the resolved user/group names at construction time. -/
def newIPCServer (euid egid : Int) (user group : String) : IPCServer :=
  ⟨euid, egid, user, group⟩

/-- `defaultMode` (ipc.go 173–178). -/
def defaultMode (isDir : Bool) : Nat :=
  if isDir then modeDirBits ||| dirPerms else modeRegBits ||| filePerms

/-- `IPCServer.entryFromMeta` (ipc.go 154–171); `now` is the wall clock read
by `time.Now()` at response time. -/
def entryFromMeta (s : IPCServer) (now : Int) (meta : FileMeta) : POSIXEntry :=
  let entry : POSIXEntry :=
    { Path := meta.Path, Size := meta.Size, ETag := meta.ETag,
      LastModified := meta.LastModified, IsDir := meta.IsDir,
      Mode := 0, UID := s.uid, GID := s.gid, User := s.user, Group := s.group }
  let entry := if entry.LastModified = 0 then { entry with LastModified := now } else entry
  { entry with Mode := defaultMode entry.IsDir }

/-- C9: every rendered `POSIXEntry` carries `Mode = 0o040000 ||| 0o550` for a
directory and `0o100000 ||| 0o440` otherwise, the daemon's effective uid and
gid captured at server construction, and the store's `LastModified` unless it
is the zero time, in which case the response-time wall clock is used. -/
theorem entryFromMeta_synthesis (euid egid : Int) (user group : String)
    (now : Int) (meta : FileMeta) :
    (entryFromMeta (newIPCServer euid egid user group) now meta).Mode
        = (if meta.IsDir then 0o040000 ||| 0o550 else 0o100000 ||| 0o440)
      ∧ (entryFromMeta (newIPCServer euid egid user group) now meta).UID = euid
      ∧ (entryFromMeta (newIPCServer euid egid user group) now meta).GID = egid
      ∧ (entryFromMeta (newIPCServer euid egid user group) now meta).LastModified
          = (if meta.LastModified = 0 then now else meta.LastModified) := by
  refine ⟨?_, ?_, ?_, ?_⟩ <;>
    simp only [entryFromMeta, newIPCServer, defaultMode, modeDirBits, modeRegBits,
      dirPerms, filePerms] <;>
    by_cases hz : meta.LastModified = 0 <;>
    simp [hz]

/-! ### `shim/ldpreload/remotefs_shim.c`: read-only open (claim C8) -/

/-- Linux `open(2)` flag values (glibc, x86-64; `O_TMPFILE` includes the
`O_DIRECTORY` bit as on Linux). -/
def O_WRONLY : Nat := 0o1

def O_RDWR : Nat := 0o2

def O_CREAT : Nat := 0o100

def O_TRUNC : Nat := 0o1000

def O_APPEND : Nat := 0o2000

def O_TMPFILE : Nat := 0o20200000

/-- The errno values the shim sets. -/
def EROFS : Int := 30

def EISDIR : Int := 21

def ENOSYS : Int := 38

/-- `allow_open_flags` (shim 797–809): `false` means the caller set
`errno = EROFS`. -/
def allow_open_flags (flags : Nat) : Bool :=
  if flags &&& (O_WRONLY ||| O_RDWR ||| O_CREAT ||| O_TRUNC ||| O_APPEND) ≠ 0 then false
  else if flags &&& O_TMPFILE ≠ 0 then false
  else true

/-- A request issued to the IPC daemon over the Unix socket. -/
inductive DaemonReq where
  | statReq (absPath : String)
  | catReq (absPath : String)
deriving DecidableEq

/-- The environment of one `remote_open_file` call: the daemon's `/stat`
answer (errno or is-directory verdict), the `mkstemp` outcome, the
`download_into_temp` outcome and the read-only reopen outcome. -/
structure OpenEnv where
  statResp : Except Int Bool
  mkstemp : Except Int Unit
  download : Except Int Unit
  reopenFd : Except Int Nat

/-- `remote_open_file` (shim 836–863): the fd or the errno, together with
the daemon requests issued (in order). `remote_stat_path` issues `/stat`;
`download_into_temp` issues `/cat`. -/
def remote_open_file (env : OpenEnv) (absPath : String) (flags : Nat) :
    Except Int Nat × List DaemonReq :=
  if ¬ allow_open_flags flags then (.error EROFS, [])
  else
    match env.statResp with
    | .error e => (.error e, [.statReq absPath])
    | .ok isDir =>
      if isDir then (.error EISDIR, [.statReq absPath])
      else
        match env.mkstemp with
        | .error e => (.error e, [.statReq absPath])
        | .ok _ =>
          match env.download with
          | .error e => (.error e, [.statReq absPath, .catReq absPath])
          | .ok _ =>
            match env.reopenFd with
            | .error e => (.error e, [.statReq absPath, .catReq absPath])
            | .ok fd => (.ok fd, [.statReq absPath, .catReq absPath])

/-- `handle_open_common` (shim 1212–1226): `within` is `path_within_root`'s
verdict with `abs` the resolved absolute path; `fallbackRes` is the original
libc symbol's result when resolved. -/
def handle_open_common (env : OpenEnv) (within : Bool) (abs : String)
    (fallbackRes : Option (Except Int Nat)) (flags : Nat) :
    Except Int Nat × List DaemonReq :=
  if within then remote_open_file env abs flags
  else
    match fallbackRes with
    | some r => (r, [])
    | none => (.error ENOSYS, [])

/-- C8: for a path inside the jail, an open/open64/openat call whose flags
include any write-intent flag (`O_WRONLY`, `O_RDWR`, `O_CREAT`, `O_TRUNC`,
`O_APPEND`, or any bit of `O_TMPFILE`) fails with `EROFS` before any I/O:
no request is issued to the daemon. -/
theorem open_write_intent_erofs (env : OpenEnv) (abs : String) (flags : Nat)
    (fallbackRes : Option (Except Int Nat))
    (hw : flags &&& (O_WRONLY ||| O_RDWR ||| O_CREAT ||| O_TRUNC ||| O_APPEND) ≠ 0
        ∨ flags &&& O_TMPFILE ≠ 0) :
    handle_open_common env true abs fallbackRes flags = (.error EROFS, []) := by
  have hallow : allow_open_flags flags = false := by
    unfold allow_open_flags
    rcases hw with hw | hw
    · rw [if_pos hw]
    · by_cases h1 :
        flags &&& (O_WRONLY ||| O_RDWR ||| O_CREAT ||| O_TRUNC ||| O_APPEND) ≠ 0
      · rw [if_pos h1]
      · rw [if_neg h1, if_pos hw]
  unfold handle_open_common remote_open_file
  rw [if_pos rfl, if_pos (by simp [hallow])]

/-- Witness for C8 at concrete inputs: `O_WRONLY`, `O_RDWR|O_CREAT` and
`O_TMPFILE` opens inside the jail all yield `EROFS` with no daemon request
(the sample environment would otherwise serve the file as fd 3). -/
theorem open_write_intent_erofs_witness :
    handle_open_common ⟨.ok false, .ok (), .ok (), .ok 3⟩ true "/remote/x" none O_WRONLY
        = (.error EROFS, [])
      ∧ handle_open_common ⟨.ok false, .ok (), .ok (), .ok 3⟩ true "/remote/x" none
          (O_RDWR ||| O_CREAT) = (.error EROFS, [])
      ∧ handle_open_common ⟨.ok false, .ok (), .ok (), .ok 3⟩ true "/remote/x" none
          O_TMPFILE = (.error EROFS, []) :=
  ⟨open_write_intent_erofs _ _ _ _ (by decide),
    open_write_intent_erofs _ _ _ _ (by decide),
    open_write_intent_erofs _ _ _ _ (by decide)⟩
